import Mathlib

/-!
Shallow embedding of the GPTCalculator expression pipeline
(`server/index.js` variants and the React client helpers):
the strict-token gate, the canonicalization rewrites (unit words,
degree wrapping, `ln`/`log` renaming), a model of the mathjs
parse/transform/evaluate step over real numbers, the `/api/eval`
orchestrator, and the client history update.

Strings are handled as `List Char`; every regex of the source is
embedded as an explicit scanner that mirrors the JavaScript regex
semantics (leftmost match, greedy components, `\b` word boundaries,
global continuation after each replacement).  JavaScript numbers are
idealized as real numbers, with `Infinity`/`-Infinity`/`NaN` tracked
explicitly as extra values.
-/

namespace GPTCalc

/-- JavaScript word character, as used by the `\b` boundary: `[A-Za-z0-9_]`. -/
def isWordChar (c : Char) : Bool := c.isAlpha || c.isDigit || c == '_'

/-- JavaScript whitespace (`\s`), restricted to the ASCII whitespace characters. -/
def isWS (c : Char) : Bool :=
  c == ' ' || c == '\t' || c == '\n' || c == '\r' || c == '\x0b' || c == '\x0c'

/-- Case-insensitive prefix match: if the pattern `w` (given in lowercase)
matches the head of `cs` up to case, return the rest of `cs`. -/
def matchCI : List Char → List Char → Option (List Char)
  | [], cs => some cs
  | _ :: _, [] => none
  | a :: as, c :: cs => if a.toLower == c.toLower then matchCI as cs else none

/-- Case-sensitive prefix match. -/
def matchCS : List Char → List Char → Option (List Char)
  | [], cs => some cs
  | _ :: _, [] => none
  | a :: as, c :: cs => if a == c then matchCS as cs else none

/-- Prefix match selected by a case-insensitivity flag (the `i` regex flag). -/
def matchW (ci : Bool) (w cs : List Char) : Option (List Char) :=
  if ci then matchCI w cs else matchCS w cs

/-- True when the list is empty or its head is not a word character:
the `\b` boundary test on the right-hand side of a match. -/
def headNotWord : List Char → Bool
  | [] => true
  | c :: _ => !isWordChar c

/-- The `\b` boundary test on the left of the current position, given the
previous character (`none` at the start of the string). -/
def boundaryOK : Option Char → Bool
  | none => true
  | some p => !isWordChar p

/-- Maximal run of decimal digits (`\d+`, greedy): the run and the rest. -/
def takeDigits : List Char → List Char × List Char
  | [] => ([], [])
  | c :: cs =>
    if c.isDigit then
      let (d, r) := takeDigits cs
      (c :: d, r)
    else ([], c :: cs)

/-- Greedy match of `\d+(?:\.\d+)?`: the matched characters and the rest,
or `none` if the input does not start with a digit.  (The optional
fraction is taken when a `.` followed by a digit is present; JS
backtracking on the digit runs cannot produce any other outcome.) -/
def takeNum (cs : List Char) : Option (List Char × List Char) :=
  let dr := takeDigits cs
  if dr.1.isEmpty then none
  else
    match dr.2 with
    | c :: r2 =>
      if c = '.' then
        let fr := takeDigits r2
        if fr.1.isEmpty then some (dr.1, dr.2)
        else some (dr.1 ++ '.' :: fr.1, fr.2)
      else some (dr.1, dr.2)
    | [] => some (dr.1, dr.2)

/-- Greedy `\s*`. -/
def dropWS (cs : List Char) : List Char := cs.dropWhile isWS

/-! ### The `ALLOWED` token gate of `evalStrict` (part_001)

`/^(?:[0-9]+(?:\.[0-9]+)?|pi|e|sin|cos|tan|log10|log|ln|exp|sqrt|[+\-*/^(),]|\s|deg|rad)+$/i`:
the whole string must be a concatenation of allowed tokens.  With
backtracking, the anchored regex accepts exactly the strings that admit
some decomposition into tokens; the scanner below tries every word
alternative (number runs can be taken maximally without loss). -/

/-- The word alternatives of the `ALLOWED` regex, in source order. -/
def allowedWords : List (List Char) :=
  ["pi", "e", "sin", "cos", "tan", "log10", "log", "ln", "exp", "sqrt",
   "deg", "rad"].map String.toList

/-- The single-character alternatives of the `ALLOWED` regex. -/
def isSingleTok (c : Char) : Bool :=
  c == '+' || c == '-' || c == '*' || c == '/' || c == '^' ||
  c == '(' || c == ')' || c == ',' || isWS c

/-- Rest of the input after the greedy number token `\d+(?:\.\d+)?`
starting at a digit, or the input unchanged when it does not start with
a digit (used only under a digit test). -/
def numTokRest (cs : List Char) : List Char :=
  match takeNum cs with
  | some (_, r) => r
  | none => cs

/-- Token-decomposition test for the `ALLOWED` regex body, with fuel
(each token consumes at least one character, so `cs.length` fuel
suffices).  Word alternatives are tried with backtracking. -/
def allowedFrom : Nat → List Char → Bool
  | 0, cs => cs.isEmpty
  | _ + 1, [] => true
  | fuel + 1, c :: cs =>
    (if c.isDigit then allowedFrom fuel (numTokRest (c :: cs)) else false) ||
    (allowedWords.any fun w =>
      match matchCI w (c :: cs) with
      | some rest => allowedFrom fuel rest
      | none => false) ||
    (if isSingleTok c then allowedFrom fuel cs else false)

/-- The full-string `ALLOWED` gate of `evalStrict`: one or more allowed
tokens (the empty string fails, as `+` requires at least one). -/
def allowedTokens (s : String) : Bool :=
  !s.isEmpty && allowedFrom s.toList.length s.toList

/-- Characters that can occur in some allowed token: digits, the decimal
point, the characters of the function/constant/unit vocabulary up to
case, the operators, parentheses, comma, and whitespace. -/
def allowedChar (c : Char) : Bool :=
  c.isDigit || c == '.' || isSingleTok c ||
  (['p', 'i', 'e', 's', 'n', 'c', 'o', 't', 'a', 'l', 'g', 'x', 'q', 'r',
    'd', '1', '0'].any fun a => a.toLower == c.toLower)

/-! Support lemmas: a string accepted by the token gate consists only of
`allowedChar` characters. -/

theorem takeDigits_append (cs : List Char) :
    (takeDigits cs).1 ++ (takeDigits cs).2 = cs := by
  induction cs with
  | nil => rfl
  | cons c cs ih =>
    simp only [takeDigits]
    by_cases h : c.isDigit
    · simp [h, ih]
    · simp [h]

theorem takeDigits_fst_digits (cs : List Char) :
    ∀ c ∈ (takeDigits cs).1, c.isDigit := by
  induction cs with
  | nil => simp [takeDigits]
  | cons c cs ih =>
    simp only [takeDigits]
    by_cases h : c.isDigit
    · simp only [h, if_pos]
      intro x hx
      rcases List.mem_cons.mp hx with h1 | h1
      · simpa [h1] using h
      · exact ih x h1
    · simp [h]

theorem takeNum_split {cs tok rest : List Char}
    (h : takeNum cs = some (tok, rest)) :
    tok ++ rest = cs ∧ ∀ c ∈ tok, c.isDigit ∨ c = '.' := by
  simp only [takeNum] at h
  have hsplit : (takeDigits cs).1 ++ (takeDigits cs).2 = cs := takeDigits_append cs
  have hddig : ∀ c ∈ (takeDigits cs).1, c.isDigit := takeDigits_fst_digits cs
  have base : (takeDigits cs).1 = tok ∧ (takeDigits cs).2 = rest →
      tok ++ rest = cs ∧ ∀ c ∈ tok, c.isDigit ∨ c = '.' := by
    rintro ⟨h1, h2⟩
    refine ⟨by rw [← h1, ← h2]; exact hsplit, fun c hc => ?_⟩
    exact Or.inl (hddig c (by rw [h1]; exact hc))
  split at h
  · exact absurd h (by simp)
  · split at h
    · split at h
      · split at h
        · simp only [Option.some.injEq, Prod.mk.injEq] at h
          exact base h
        · rename_i x c0 r2 heq hdot hfr
          have hsplit2 : (takeDigits r2).1 ++ (takeDigits r2).2 = r2 :=
            takeDigits_append r2
          have hfdig : ∀ c ∈ (takeDigits r2).1, c.isDigit :=
            takeDigits_fst_digits r2
          simp only [Option.some.injEq, Prod.mk.injEq] at h
          subst hdot
          constructor
          · rw [← h.1, ← h.2]
            have hs : ((takeDigits cs).1 ++ '.' :: (takeDigits r2).1) ++
                (takeDigits r2).2 = (takeDigits cs).1 ++ (takeDigits cs).2 := by
              rw [heq, List.append_assoc, List.cons_append, hsplit2]
            rw [hs, hsplit]
          · intro c hc
            rw [← h.1] at hc
            rcases List.mem_append.mp hc with h1 | h1
            · exact Or.inl (hddig c h1)
            · rcases List.mem_cons.mp h1 with h2 | h2
              · exact Or.inr h2
              · exact Or.inl (hfdig c h2)
      · simp only [Option.some.injEq, Prod.mk.injEq] at h
        exact base h
    · simp only [Option.some.injEq, Prod.mk.injEq] at h
      exact base h

theorem matchCI_rest_mem {w cs rest : List Char}
    (h : matchCI w cs = some rest) : ∀ c ∈ rest, c ∈ cs := by
  induction w generalizing cs with
  | nil =>
    simp only [matchCI, Option.some.injEq] at h
    subst h; intro c hc; exact hc
  | cons a as ih =>
    match cs with
    | [] => exact absurd h (by simp [matchCI])
    | c0 :: cs' =>
      simp only [matchCI] at h
      split at h
      · intro c hc; exact List.mem_cons_of_mem _ (ih h c hc)
      · exact absurd h (by simp)

theorem matchCI_head_chars {w cs rest : List Char}
    (h : matchCI w cs = some rest) :
    ∀ c ∈ cs, c ∈ rest ∨ ∃ a ∈ w, a.toLower = c.toLower := by
  induction w generalizing cs with
  | nil =>
    simp only [matchCI, Option.some.injEq] at h
    subst h; exact fun c hc => Or.inl hc
  | cons a as ih =>
    match cs with
    | [] => exact absurd h (by simp [matchCI])
    | c0 :: cs' =>
      simp only [matchCI] at h
      split at h
      case isTrue heq =>
        intro c hc
        rcases List.mem_cons.mp hc with h1 | h1
        · subst h1
          exact Or.inr ⟨a, List.mem_cons_self a as, by simpa using heq⟩
        · rcases ih h c h1 with h2 | ⟨b, hb, hb2⟩
          · exact Or.inl h2
          · exact Or.inr ⟨b, List.mem_cons_of_mem _ hb, hb2⟩
      case isFalse => exact absurd h (by simp)

theorem allowedWords_chars :
    ∀ w ∈ allowedWords, ∀ a ∈ w, ∀ c : Char,
      a.toLower = c.toLower → allowedChar c = true := by
  intro w hw a ha c hc
  have hmem : a ∈
      ['p', 'i', 'e', 's', 'n', 'c', 'o', 't', 'a', 'l', 'g', 'x', 'q', 'r',
       'd', '1', '0'] := by
    have hall : ∀ w ∈ allowedWords, ∀ a ∈ w,
        a ∈ ['p', 'i', 'e', 's', 'n', 'c', 'o', 't', 'a', 'l', 'g', 'x', 'q',
             'r', 'd', '1', '0'] := by decide
    exact hall w hw a ha
  unfold allowedChar
  refine Bool.or_eq_true _ _ |>.mpr (Or.inr ?_)
  rw [List.any_eq_true]
  exact ⟨a, hmem, by rw [hc]; simp⟩

theorem allowedFrom_chars (fuel : Nat) :
    ∀ cs : List Char, allowedFrom fuel cs = true → ∀ c ∈ cs, allowedChar c := by
  induction fuel with
  | zero =>
    intro cs h c hc
    cases cs with
    | nil => cases hc
    | cons c0 cs' => simp [allowedFrom] at h
  | succ fuel ih =>
    intro cs h c hc
    match cs, hc with
    | c0 :: cs', hc =>
      simp only [allowedFrom, Bool.or_eq_true] at h
      rcases h with (h | h) | h
      · -- number token
        split at h
        case isTrue hd =>
          rcases hn : takeNum (c0 :: cs') with _ | ⟨tok, rest⟩
          · rw [numTokRest, hn] at h
            exact ih _ h c hc
          · rw [numTokRest, hn] at h
            by_cases hcr : c ∈ rest
            · exact ih rest h c hcr
            · -- c is in the consumed number token: a digit or a dot
              rcases takeNum_split hn with ⟨hsplit, htok⟩
              have hctok : c ∈ tok := by
                rw [← hsplit] at hc
                rcases List.mem_append.mp hc with h1 | h1
                · exact h1
                · exact absurd h1 hcr
              rcases htok c hctok with h1 | h1 <;> simp [allowedChar, h1]
        case isFalse => exact absurd h (by simp)
      · -- word token
        rw [List.any_eq_true] at h
        rcases h with ⟨w, hw, hmatch⟩
        rcases hm : matchCI w (c0 :: cs') with _ | rest
        · rw [hm] at hmatch; exact absurd hmatch (by simp)
        · rw [hm] at hmatch
          rcases matchCI_head_chars hm c hc with h1 | ⟨a, ha, ha2⟩
          · exact ih rest hmatch c h1
          · exact allowedWords_chars w hw a ha c ha2
      · -- single-character token
        split at h
        case isTrue hs =>
          rcases List.mem_cons.mp hc with h1 | h1
          · subst h1; simp [allowedChar, hs]
          · exact ih cs' h c h1
        case isFalse => exact absurd h (by simp)

/-! ### Canonicalization rewrites of `evalStrict` (part_001)

Each `String.replace(regex, …)` of the source is embedded as a scanner
over the character list.  The scanners follow the JS engine: leftmost
match, greedy subpatterns, and after a replacement the scan continues
with the characters following the matched text. -/

/-- Global replace of a bare word with `\b` boundaries on both sides
(`s.replace(/\bWORD\b/g…, repl)`); `ci` is the `i` flag.  `prev` is the
character before the current position (`none` at the start); after a
replacement, scanning continues with the last character of the matched
occurrence as the new `prev` (word-char-wise identical to the last
pattern character). -/
def replaceWordF (ci : Bool) (w repl : List Char) :
    Nat → Option Char → List Char → List Char
  | 0, _, cs => cs
  | fuel + 1, prev, cs =>
    match cs with
    | [] => []
    | c :: cs' =>
      match (if boundaryOK prev then matchW ci w (c :: cs') else none) with
      | some rest =>
        if headNotWord rest then
          repl ++ replaceWordF ci w repl fuel (some (w.getLastD 'x')) rest
        else c :: replaceWordF ci w repl fuel (some c) cs'
      | none => c :: replaceWordF ci w repl fuel (some c) cs'

/-- String-level wrapper for `replaceWordF`. -/
def replaceWord (ci : Bool) (w repl : String) (s : String) : String :=
  ⟨replaceWordF ci w.toList repl.toList s.toList.length none s.toList⟩

/-- Global replace of `(\d+(?:\.\d+)?)\s*deg\b` (case-insensitive) by
`($1 * pi / 180)`, and of the `rad` twin by `($1)`; `mkRepl` builds the
replacement from the captured number.  The pattern has no left `\b`, so
a match may start at any digit. -/
def unitSubF (unit : List Char) (mkRepl : List Char → List Char) :
    Nat → List Char → List Char
  | 0, cs => cs
  | fuel + 1, cs =>
    match cs with
    | [] => []
    | c :: cs' =>
      match takeNum (c :: cs') with
      | some (numCs, r1) =>
        match matchCI unit (dropWS r1) with
        | some r3 =>
          if headNotWord r3 then mkRepl numCs ++ unitSubF unit mkRepl fuel r3
          else c :: unitSubF unit mkRepl fuel cs'
        | none => c :: unitSubF unit mkRepl fuel cs'
      | none => c :: unitSubF unit mkRepl fuel cs'

/-- Replacement `($1 * pi / 180)` for a degree literal. -/
def degRepl (numCs : List Char) : List Char :=
  '(' :: numCs ++ " * pi / 180)".toList

/-- Replacement `($1)` for a radian literal. -/
def radRepl (numCs : List Char) : List Char :=
  '(' :: numCs ++ [')']

/-- The two unit-literal rewrites of `evalStrict`. -/
def unitReplace (unit : String) (mkRepl : List Char → List Char)
    (s : String) : String :=
  ⟨unitSubF unit.toList mkRepl s.toList.length s.toList⟩

/-- Maximal `[^)]+` followed by `)`: the (nonempty) argument characters
and the rest after the closing parenthesis. -/
def takeNonParen (cs : List Char) : Option (List Char × List Char) :=
  let arg := cs.takeWhile (fun c => c ≠ ')')
  if arg.isEmpty then none
  else
    match cs.dropWhile (fun c => c ≠ ')') with
    | ')' :: rest => some (arg, rest)
    | _ => none

/-- Global replace of `\bFN\s*\(([^)]+)\)` (case-insensitive) by
`FN(($1) * pi / 180)`, for `FN` one of `sin`, `cos`, `tan`: the degree
wrap of `evalStrict` when `angleMode` is `DEG`.  The replacement text
uses the fixed lowercase function name, as in the source template. -/
def trigSubF (fn : List Char) : Nat → Option Char → List Char → List Char
  | 0, _, cs => cs
  | fuel + 1, prev, cs =>
    match cs with
    | [] => []
    | c :: cs' =>
      match (if boundaryOK prev then matchCI fn (c :: cs') else none) with
      | some r1 =>
        match dropWS r1 with
        | '(' :: r3 =>
          match takeNonParen r3 with
          | some (arg, r4) =>
            (fn ++ '(' :: '(' :: arg ++ ") * pi / 180)".toList) ++
              trigSubF fn fuel (some ')') r4
          | none => c :: trigSubF fn fuel (some c) cs'
        | _ => c :: trigSubF fn fuel (some c) cs'
      | none => c :: trigSubF fn fuel (some c) cs'

/-- String-level degree wrap for one trig function. -/
def trigWrap (fn : String) (s : String) : String :=
  ⟨trigSubF fn.toList s.toList.length none s.toList⟩

/-- The `/^DEG$/i.test(angleMode)` check of `evalStrict`. -/
def modeIsDEG (m : String) : Bool :=
  m.toList.map Char.toLower == "deg".toList

/-- The canonicalization phase of `evalStrict` (part_001): constant/unit
case normalization, explicit `deg`/`rad` literal rewriting, and — in DEG
mode — the trig-argument degree wrap, in source order. -/
def canonStr (expr mode : String) : String :=
  let s1 := replaceWord true "pi" "pi" expr
  let s2 := replaceWord false "E" "e" s1
  let s3 := replaceWord true "rad" "rad" s2
  let s4 := replaceWord true "deg" "deg" s3
  let s5 := unitReplace "deg" degRepl s4
  let s6 := unitReplace "rad" radRepl s5
  if modeIsDEG mode then trigWrap "tan" (trigWrap "cos" (trigWrap "sin" s6))
  else s6

/-! ### A model of `math.parse`

The strict pipeline hands the canonicalized string to mathjs.  The
lexer and recursive-descent parser below model mathjs's expression
grammar on the token vocabulary reachable through the gate: numbers
(with optional fraction and scientific exponent), identifiers, the
binary operators `+ - * / ^` (with `^` right-associative, binding
tighter than unary minus), unary `+`/`-`, parentheses, comma-separated
function arguments, and implicit multiplication before an identifier or
an opening parenthesis. -/

inductive Tok where
  | tnum : ℕ → ℤ → Tok
  | tid : String → Tok
  | tplus | tminus | tmul | tdiv | tpow | tlp | trp | tcomma
deriving DecidableEq, Repr

/-- Numeric value of a digit run. -/
def natOfDigits (ds : List Char) : Nat :=
  ds.foldl (fun acc c => acc * 10 + (c.toNat - '0'.toNat)) 0

/-- Lexer: one token per step, fuel-bounded (each step consumes at
least one character).  A numeric literal is recorded as a mantissa and
a power-of-ten exponent: `m.f eE±x` denotes `mf × 10^(x - |f|)`. -/
def lexF : Nat → List Char → Option (List Tok)
  | 0, cs => if cs.isEmpty then some [] else none
  | _ + 1, [] => some []
  | fuel + 1, c :: cs =>
    if isWS c then lexF fuel cs
    else if c.isDigit then
      let (d, r1) := takeDigits (c :: cs)
      let (frac, r2) :=
        match r1 with
        | '.' :: r =>
          match takeDigits r with
          | ([], _) => (([] : List Char), r1)
          | (f, r') => (f, r')
        | _ => ([], r1)
      let mant : ℕ := natOfDigits (d ++ frac)
      match r2 with
      | 'e' :: r3 | 'E' :: r3 =>
        let (sgn, r4) :=
          match r3 with
          | '+' :: r => ((1 : ℤ), r)
          | '-' :: r => ((-1 : ℤ), r)
          | _ => ((1 : ℤ), r3)
        match takeDigits r4 with
        | ([], _) => none
        | (es, r5) =>
          (lexF fuel r5).map fun ts =>
            .tnum mant (sgn * (natOfDigits es : ℤ) - frac.length) :: ts
      | _ =>
        (lexF fuel r2).map fun ts => .tnum mant (-(frac.length : ℤ)) :: ts
    else if c.isAlpha then
      let name := (c :: cs).takeWhile fun x => x.isAlpha || x.isDigit
      let r := (c :: cs).dropWhile fun x => x.isAlpha || x.isDigit
      (lexF fuel r).map fun ts => .tid ⟨name⟩ :: ts
    else if c = '+' then (lexF fuel cs).map (.tplus :: ·)
    else if c = '-' then (lexF fuel cs).map (.tminus :: ·)
    else if c = '*' then (lexF fuel cs).map (.tmul :: ·)
    else if c = '/' then (lexF fuel cs).map (.tdiv :: ·)
    else if c = '^' then (lexF fuel cs).map (.tpow :: ·)
    else if c = '(' then (lexF fuel cs).map (.tlp :: ·)
    else if c = ')' then (lexF fuel cs).map (.trp :: ·)
    else if c = ',' then (lexF fuel cs).map (.tcomma :: ·)
    else none

/-- Expression tree, mirroring the mathjs node kinds the pipeline
touches: `ConstantNode`, `SymbolNode`, `FunctionNode` (callee name plus
arguments), unary minus and the binary `OperatorNode`s.  Parenthesis
nodes are flattened. -/
inductive Ast where
  | num : ℕ → ℤ → Ast
  | sym : String → Ast
  | call : String → List Ast → Ast
  | neg : Ast → Ast
  | add : Ast → Ast → Ast
  | sub : Ast → Ast → Ast
  | mul : Ast → Ast → Ast
  | div : Ast → Ast → Ast
  | pow : Ast → Ast → Ast
deriving Repr

mutual

/-- Structural equality test on `Ast`. -/
def astBeq : Ast → Ast → Bool
  | .num a e, .num b e' => a == b && e == e'
  | .sym a, .sym b => a == b
  | .call f as, .call g bs => f == g && astListBeq as bs
  | .neg a, .neg b => astBeq a b
  | .add a b, .add c d => astBeq a c && astBeq b d
  | .sub a b, .sub c d => astBeq a c && astBeq b d
  | .mul a b, .mul c d => astBeq a c && astBeq b d
  | .div a b, .div c d => astBeq a c && astBeq b d
  | .pow a b, .pow c d => astBeq a c && astBeq b d
  | _, _ => false

/-- Structural equality test on argument lists. -/
def astListBeq : List Ast → List Ast → Bool
  | [], [] => true
  | a :: as, b :: bs => astBeq a b && astListBeq as bs
  | _, _ => false

end

mutual

/-- Soundness of the structural equality test. -/
theorem astBeq_sound : ∀ a b, astBeq a b = true → a = b
  | .num m e, b, h => by cases b <;> simp_all [astBeq]
  | .sym s, b, h => by cases b <;> simp_all [astBeq]
  | .call f as, b, h => by
    cases b <;> simp only [astBeq, Bool.false_eq_true] at h
    case call g bs =>
      rcases Bool.and_eq_true _ _ |>.mp h with ⟨h1, h2⟩
      rw [eq_of_beq h1, astListBeq_sound as bs h2]
  | .neg a, b, h => by
    cases b <;> simp only [astBeq, Bool.false_eq_true] at h
    case neg b' => rw [astBeq_sound a b' h]
  | .add a b, c, h => by
    cases c <;> simp only [astBeq, Bool.false_eq_true] at h
    case add c' d' =>
      rcases Bool.and_eq_true _ _ |>.mp h with ⟨h1, h2⟩
      rw [astBeq_sound a c' h1, astBeq_sound b d' h2]
  | .sub a b, c, h => by
    cases c <;> simp only [astBeq, Bool.false_eq_true] at h
    case sub c' d' =>
      rcases Bool.and_eq_true _ _ |>.mp h with ⟨h1, h2⟩
      rw [astBeq_sound a c' h1, astBeq_sound b d' h2]
  | .mul a b, c, h => by
    cases c <;> simp only [astBeq, Bool.false_eq_true] at h
    case mul c' d' =>
      rcases Bool.and_eq_true _ _ |>.mp h with ⟨h1, h2⟩
      rw [astBeq_sound a c' h1, astBeq_sound b d' h2]
  | .div a b, c, h => by
    cases c <;> simp only [astBeq, Bool.false_eq_true] at h
    case div c' d' =>
      rcases Bool.and_eq_true _ _ |>.mp h with ⟨h1, h2⟩
      rw [astBeq_sound a c' h1, astBeq_sound b d' h2]
  | .pow a b, c, h => by
    cases c <;> simp only [astBeq, Bool.false_eq_true] at h
    case pow c' d' =>
      rcases Bool.and_eq_true _ _ |>.mp h with ⟨h1, h2⟩
      rw [astBeq_sound a c' h1, astBeq_sound b d' h2]

/-- Soundness of the structural equality test on lists. -/
theorem astListBeq_sound : ∀ as bs, astListBeq as bs = true → as = bs
  | [], bs, h => by cases bs <;> simp_all [astListBeq]
  | a :: as, bs, h => by
    cases bs <;> simp only [astListBeq, Bool.false_eq_true] at h
    case cons b bs' =>
      rcases Bool.and_eq_true _ _ |>.mp h with ⟨h1, h2⟩
      rw [astBeq_sound a b h1, astListBeq_sound as bs' h2]

end

/-- Equality of a parse result with an expected tree, as a computable
test. -/
def optAstBeq (o : Option Ast) (a : Ast) : Bool :=
  match o with
  | some b => astBeq a b
  | none => false

theorem optAstBeq_sound {o : Option Ast} {a : Ast}
    (h : optAstBeq o a = true) : o = some a := by
  match o, h with
  | some b, h => rw [astBeq_sound a b h]
  | none, h => exact absurd h (by simp [optAstBeq])

/-- Parser result: a node and the unconsumed tokens. -/
abbrev PRes := Option (Ast × List Tok)

mutual

/-- Additive level: `mulExpr (('+'|'-') mulExpr)*`, left-associative. -/
def parseAdd : Nat → List Tok → PRes
  | 0, _ => none
  | fuel + 1, ts =>
    match parseMul fuel ts with
    | none => none
    | some (a, rest) => parseAddLoop fuel a rest

/-- Loop of the additive level. -/
def parseAddLoop : Nat → Ast → List Tok → PRes
  | 0, _, _ => none
  | fuel + 1, a, ts =>
    match ts with
    | .tplus :: ts' =>
      match parseMul fuel ts' with
      | none => none
      | some (b, rest) => parseAddLoop fuel (.add a b) rest
    | .tminus :: ts' =>
      match parseMul fuel ts' with
      | none => none
      | some (b, rest) => parseAddLoop fuel (.sub a b) rest
    | _ => some (a, ts)

/-- Multiplicative level: explicit `*`/`/` and implicit multiplication
before an identifier or `(`. -/
def parseMul : Nat → List Tok → PRes
  | 0, _ => none
  | fuel + 1, ts =>
    match parseUnary fuel ts with
    | none => none
    | some (a, rest) => parseMulLoop fuel a rest

/-- Loop of the multiplicative level. -/
def parseMulLoop : Nat → Ast → List Tok → PRes
  | 0, _, _ => none
  | fuel + 1, a, ts =>
    match ts with
    | .tmul :: ts' =>
      match parseUnary fuel ts' with
      | none => none
      | some (b, rest) => parseMulLoop fuel (.mul a b) rest
    | .tdiv :: ts' =>
      match parseUnary fuel ts' with
      | none => none
      | some (b, rest) => parseMulLoop fuel (.div a b) rest
    | .tid _ :: _ =>
      match parseUnary fuel ts with
      | none => none
      | some (b, rest) => parseMulLoop fuel (.mul a b) rest
    | .tlp :: _ =>
      match parseUnary fuel ts with
      | none => none
      | some (b, rest) => parseMulLoop fuel (.mul a b) rest
    | _ => some (a, ts)

/-- Unary level: `-`/`+` prefixes (binding looser than `^`, so
`-2^2 = -(2^2)` as in mathjs). -/
def parseUnary : Nat → List Tok → PRes
  | 0, _ => none
  | fuel + 1, ts =>
    match ts with
    | .tminus :: ts' =>
      match parseUnary fuel ts' with
      | none => none
      | some (a, rest) => some (.neg a, rest)
    | .tplus :: ts' => parseUnary fuel ts'
    | _ => parsePow fuel ts

/-- Power level: `primary ('^' unary)?`, right-associative with a
possibly signed exponent. -/
def parsePow : Nat → List Tok → PRes
  | 0, _ => none
  | fuel + 1, ts =>
    match parsePrimary fuel ts with
    | none => none
    | some (a, rest) =>
      match rest with
      | .tpow :: ts' =>
        match parseUnary fuel ts' with
        | none => none
        | some (b, rest') => some (.pow a b, rest')
      | _ => some (a, rest)

/-- Primary level: number, identifier (with an optional call argument
list), or parenthesized expression. -/
def parsePrimary : Nat → List Tok → PRes
  | 0, _ => none
  | fuel + 1, ts =>
    match ts with
    | .tnum m e :: rest => some (.num m e, rest)
    | .tid s :: .tlp :: .trp :: rest => some (.call s [], rest)
    | .tid s :: .tlp :: ts' =>
      match parseArgs fuel ts' with
      | none => none
      | some (args, rest) => some (.call s args, rest)
    | .tid s :: rest => some (.sym s, rest)
    | .tlp :: ts' =>
      match parseAdd fuel ts' with
      | none => none
      | some (a, .trp :: rest) => some (a, rest)
      | some _ => none
    | _ => none

/-- Comma-separated argument list, consuming the closing parenthesis. -/
def parseArgs : Nat → List Tok → Option (List Ast × List Tok)
  | 0, _ => none
  | fuel + 1, ts =>
    match parseAdd fuel ts with
    | none => none
    | some (a, .tcomma :: ts') =>
      match parseArgs fuel ts' with
      | none => none
      | some (args, rest) => some (a :: args, rest)
    | some (a, .trp :: rest) => some ([a], rest)
    | some _ => none

end

/-- Full parse of a string: lex, parse an additive expression, and
require all tokens consumed (mathjs errors on leftover input). -/
def parseE (s : String) : Option Ast :=
  match lexF (s.toList.length + 1) s.toList with
  | none => none
  | some ts =>
    match parseAdd (5 * ts.length + 5) ts with
    | some (a, []) => some a
    | _ => none

mutual

/-- The `ast.transform` callback of `evalStrict` (part_001): a
`FunctionNode` whose callee is the symbol `log` with exactly one
argument becomes `log10` of the same argument, and a `FunctionNode`
whose callee is `ln` becomes `log`.  As with mathjs `transform`, a
replaced node is not traversed further (its arguments stay as built by
the parser); other nodes are transformed recursively. -/
def transformLogLn : Ast → Ast
  | .call f args =>
    if f = "log" ∧ args.length = 1 then .call "log10" args
    else if f = "ln" then .call "log" args
    else .call f (transformArgs args)
  | .neg a => .neg (transformLogLn a)
  | .add a b => .add (transformLogLn a) (transformLogLn b)
  | .sub a b => .sub (transformLogLn a) (transformLogLn b)
  | .mul a b => .mul (transformLogLn a) (transformLogLn b)
  | .div a b => .div (transformLogLn a) (transformLogLn b)
  | .pow a b => .pow (transformLogLn a) (transformLogLn b)
  | .num m e => .num m e
  | .sym s => .sym s

/-- Transform of an argument list. -/
def transformArgs : List Ast → List Ast
  | [] => []
  | a :: as => transformLogLn a :: transformArgs as

end

/-! ### Value semantics

JavaScript numbers are idealized as real numbers, with the non-finite
values `Infinity`, `-Infinity` and `NaN` tracked separately (finite
overflow is not modelled).  mathjs may also produce a `Complex` value
(for example `sqrt(-1)`), a function value (a bare function name such
as `log10`), or a `Unit`; `typeof v === "number"` is true exactly for
the `num` constructor.  Unit arithmetic is not modelled (it is treated
as an evaluation error); no verified statement evaluates a unit
expression. -/

inductive JSNum where
  | fin : ℝ → JSNum
  | inf : JSNum
  | ninf : JSNum
  | nan : JSNum

inductive MathValue where
  | num : JSNum → MathValue
  | cplx : ℂ → MathValue
  | fnV : String → MathValue
  | unitV : String → MathValue

/-- JS addition on numbers. -/
noncomputable def jsAdd : JSNum → JSNum → JSNum
  | .fin a, .fin b => .fin (a + b)
  | .fin _, .inf => .inf
  | .inf, .fin _ => .inf
  | .inf, .inf => .inf
  | .fin _, .ninf => .ninf
  | .ninf, .fin _ => .ninf
  | .ninf, .ninf => .ninf
  | _, _ => .nan

/-- JS negation on numbers. -/
noncomputable def jsNeg : JSNum → JSNum
  | .fin a => .fin (-a)
  | .inf => .ninf
  | .ninf => .inf
  | .nan => .nan

/-- JS subtraction on numbers. -/
noncomputable def jsSub (a b : JSNum) : JSNum := jsAdd a (jsNeg b)

/-- JS multiplication on numbers. -/
noncomputable def jsMul : JSNum → JSNum → JSNum
  | .fin a, .fin b => .fin (a * b)
  | .fin a, .inf => if 0 < a then .inf else if a < 0 then .ninf else .nan
  | .inf, .fin b => if 0 < b then .inf else if b < 0 then .ninf else .nan
  | .fin a, .ninf => if 0 < a then .ninf else if a < 0 then .inf else .nan
  | .ninf, .fin b => if 0 < b then .ninf else if b < 0 then .inf else .nan
  | .inf, .inf => .inf
  | .ninf, .ninf => .inf
  | .inf, .ninf => .ninf
  | .ninf, .inf => .ninf
  | _, _ => .nan

/-- JS division on numbers: a finite numerator over zero gives a signed
infinity (`0/0` gives `NaN`; the sign of zero is not modelled). -/
noncomputable def jsDiv : JSNum → JSNum → JSNum
  | .fin a, .fin b =>
    if b = 0 then (if 0 < a then .inf else if a < 0 then .ninf else .nan)
    else .fin (a / b)
  | .fin _, .inf => .fin 0
  | .fin _, .ninf => .fin 0
  | .inf, .fin b => if 0 ≤ b then .inf else .ninf
  | .ninf, .fin b => if 0 ≤ b then .ninf else .inf
  | _, _ => .nan

open Classical in
/-- mathjs `pow` on numbers: positive base uses the real power, a
negative base with an integer exponent stays real, and a negative base
with a non-integer exponent yields the principal complex power. -/
noncomputable def powV : JSNum → JSNum → MathValue
  | .fin a, .fin b =>
    if 0 < a then .num (.fin (a ^ b))
    else if a = 0 then
      (if 0 < b then .num (.fin 0)
       else if b = 0 then .num (.fin 1)
       else .num .inf)
    else if h : ∃ n : ℤ, (n : ℝ) = b then .num (.fin (a ^ Classical.choose h))
    else .cplx (Complex.cpow (a : ℂ) (b : ℂ))
  | .fin a, .inf =>
    if 1 < |a| then .num .inf else if |a| = 1 then .num .nan else .num (.fin 0)
  | .fin a, .ninf =>
    if 1 < |a| then .num (.fin 0) else if |a| = 1 then .num .nan else .num .inf
  | .inf, .fin b =>
    if 0 < b then .num .inf else if b = 0 then .num (.fin 1) else .num (.fin 0)
  | .ninf, .fin b =>
    if 0 < b then .num .inf else if b = 0 then .num (.fin 1) else .num (.fin 0)
  | _, _ => .num .nan

/-- Promotion of a value to ℂ, when it is a finite number or complex. -/
noncomputable def toComplex : MathValue → Option ℂ
  | .num (.fin x) => some (x : ℂ)
  | .cplx z => some z
  | _ => none

/-- A binary arithmetic operation on mathjs values: numbers combine by
the JS table, finite numbers and complex values combine in ℂ, and any
function or unit operand is an evaluation error. -/
noncomputable def valueBin (fN : JSNum → JSNum → JSNum) (fC : ℂ → ℂ → ℂ) :
    MathValue → MathValue → Option MathValue
  | .num a, .num b => some (.num (fN a b))
  | .cplx a, .cplx b => some (.cplx (fC a b))
  | .num (.fin a), .cplx b => some (.cplx (fC (a : ℂ) b))
  | .cplx a, .num (.fin b) => some (.cplx (fC a (b : ℂ)))
  | .num _, .cplx _ => some (.num .nan)
  | .cplx _, .num _ => some (.num .nan)
  | _, _ => none

/-- Binary `pow` on values. -/
noncomputable def valuePow : MathValue → MathValue → Option MathValue
  | .num a, .num b => some (powV a b)
  | .cplx a, .cplx b => some (.cplx (Complex.cpow a b))
  | .num (.fin a), .cplx b => some (.cplx (Complex.cpow (a : ℂ) b))
  | .cplx a, .num (.fin b) => some (.cplx (Complex.cpow a (b : ℂ)))
  | .num _, .cplx _ => some (.num .nan)
  | .cplx _, .num _ => some (.num .nan)
  | _, _ => none

/-- Unary minus on values. -/
noncomputable def valueNeg : MathValue → Option MathValue
  | .num a => some (.num (jsNeg a))
  | .cplx z => some (.cplx (-z))
  | _ => none

/-- mathjs `log` of one value (natural logarithm): positive reals stay
real, zero gives `-Infinity`, negative reals and complex arguments give
the principal complex logarithm. -/
noncomputable def logOne : MathValue → Option MathValue
  | .num (.fin x) =>
    if 0 < x then some (.num (.fin (Real.log x)))
    else if x = 0 then some (.num .ninf)
    else some (.cplx (Complex.log (x : ℂ)))
  | .num .inf => some (.num .inf)
  | .num _ => some (.num .nan)
  | .cplx z => some (.cplx (Complex.log z))
  | _ => none

/-- Symbol lookup, mirroring mathjs's case-sensitive scope: the
constants `pi` and `e`, the unit words, and the built-in function names
(`ln` is not defined in mathjs, so a bare `ln` is an evaluation
error, as is any other unknown symbol). -/
noncomputable def evalSym (s : String) : Option MathValue :=
  if s = "pi" then some (.num (.fin Real.pi))
  else if s = "e" then some (.num (.fin (Real.exp 1)))
  else if s = "deg" then some (.unitV "deg")
  else if s = "rad" then some (.unitV "rad")
  else if s = "sin" ∨ s = "cos" ∨ s = "tan" ∨ s = "log" ∨ s = "log10" ∨
      s = "exp" ∨ s = "sqrt" then some (.fnV s)
  else none

/-- mathjs `sin` on an argument list. -/
noncomputable def applySin : List MathValue → Option MathValue
  | [.num (.fin x)] => some (.num (.fin (Real.sin x)))
  | [.num _] => some (.num .nan)
  | [.cplx z] => some (.cplx (Complex.sin z))
  | _ => none

/-- mathjs `cos` on an argument list. -/
noncomputable def applyCos : List MathValue → Option MathValue
  | [.num (.fin x)] => some (.num (.fin (Real.cos x)))
  | [.num _] => some (.num .nan)
  | [.cplx z] => some (.cplx (Complex.cos z))
  | _ => none

/-- mathjs `tan` on an argument list. -/
noncomputable def applyTan : List MathValue → Option MathValue
  | [.num (.fin x)] => some (.num (.fin (Real.tan x)))
  | [.num _] => some (.num .nan)
  | [.cplx z] => some (.cplx (Complex.tan z))
  | _ => none

/-- mathjs `log` on an argument list: natural log of one argument, or
`log(x)/log(base)` of two. -/
noncomputable def applyLog : List MathValue → Option MathValue
  | [v] => logOne v
  | [v, b] =>
    match logOne v, logOne b with
    | some lv, some lb => valueBin jsDiv (· / ·) lv lb
    | _, _ => none
  | _ => none

/-- mathjs `log10` on an argument list. -/
noncomputable def applyLog10 : List MathValue → Option MathValue
  | [.num (.fin x)] =>
    if 0 < x then some (.num (.fin (Real.logb 10 x)))
    else if x = 0 then some (.num .ninf)
    else some (.cplx (Complex.log (x : ℂ) / (Real.log 10 : ℂ)))
  | [.num .inf] => some (.num .inf)
  | [.num _] => some (.num .nan)
  | [.cplx z] => some (.cplx (Complex.log z / (Real.log 10 : ℂ)))
  | _ => none

/-- mathjs `exp` on an argument list. -/
noncomputable def applyExp : List MathValue → Option MathValue
  | [.num (.fin x)] => some (.num (.fin (Real.exp x)))
  | [.num .inf] => some (.num .inf)
  | [.num .ninf] => some (.num (.fin 0))
  | [.num .nan] => some (.num .nan)
  | [.cplx z] => some (.cplx (Complex.exp z))
  | _ => none

/-- mathjs `sqrt` on an argument list: a negative real argument yields
the purely imaginary principal square root. -/
noncomputable def applySqrt : List MathValue → Option MathValue
  | [.num (.fin x)] =>
    if 0 ≤ x then some (.num (.fin (Real.sqrt x)))
    else some (.cplx { re := 0, im := Real.sqrt (-x) })
  | [.num .inf] => some (.num .inf)
  | [.num _] => some (.num .nan)
  | [.cplx z] => some (.cplx (Complex.cpow z (1 / 2 : ℂ)))
  | _ => none

/-- Application of a built-in function to evaluated arguments,
mirroring mathjs on numbers and on the principal complex branches;
wrong arity or an unknown name is an evaluation error. -/
noncomputable def applyFn (f : String) (vs : List MathValue) :
    Option MathValue :=
  if f = "sin" then applySin vs
  else if f = "cos" then applyCos vs
  else if f = "tan" then applyTan vs
  else if f = "log" then applyLog vs
  else if f = "log10" then applyLog10 vs
  else if f = "exp" then applyExp vs
  else if f = "sqrt" then applySqrt vs
  else none

mutual

/-- Evaluation of an expression tree to a mathjs value: `none` models a
thrown evaluation error (undefined symbol, wrong argument types or
arity, calling a non-function). -/
noncomputable def evalV : Ast → Option MathValue
  | .num m e => some (.num (.fin ((m : ℝ) * 10 ^ e)))
  | .sym s => evalSym s
  | .call f args =>
    match evalArgs args with
    | none => none
    | some vs => applyFn f vs
  | .neg a =>
    match evalV a with
    | none => none
    | some v => valueNeg v
  | .add a b =>
    match evalV a, evalV b with
    | some va, some vb => valueBin jsAdd (· + ·) va vb
    | _, _ => none
  | .sub a b =>
    match evalV a, evalV b with
    | some va, some vb => valueBin jsSub (· - ·) va vb
    | _, _ => none
  | .mul a b =>
    match evalV a, evalV b with
    | some va, some vb => valueBin jsMul (· * ·) va vb
    | _, _ => none
  | .div a b =>
    match evalV a, evalV b with
    | some va, some vb => valueBin jsDiv (· / ·) va vb
    | _, _ => none
  | .pow a b =>
    match evalV a, evalV b with
    | some va, some vb => valuePow va vb
    | _, _ => none

/-- Evaluation of an argument list, failing if any argument fails. -/
noncomputable def evalArgs : List Ast → Option (List MathValue)
  | [] => some []
  | a :: as =>
    match evalV a, evalArgs as with
    | some v, some vs => some (v :: vs)
    | _, _ => none

end

/-- Rounding to 14 decimal places:
`Math.round(v * 1e14) / 1e14` (Lean's `round` and JS `Math.round` both
round half toward positive infinity). -/
noncomputable def round14 (x : ℝ) : ℝ := (round (x * 10 ^ 14) : ℤ) / 10 ^ 14

/-- The error taxonomy of the strict pipeline.  `evalStrict` itself can
only surface `disallowedToken` and `invalidExpression`; the remaining
constructors are the errors thrown inside its `try` block, before the
`catch` replaces them. -/
inductive EvalErr where
  | disallowedToken
  | invalidExpression
  | parseFailure
  | incompleteFunctionCall
  | nonFiniteResult
  | unsupportedResultType
deriving DecidableEq, Repr

/-- The post-evaluation guards of `evalStrict` (part_001), in source
order: a callable result fails as an incomplete function call; a
finite number is rounded to 14 decimal places and returned; a
non-finite number fails; anything else (complex, unit, …) is an
unsupported result.  `none` models a mathjs parse/evaluation throw. -/
noncomputable def evalGuards : Option MathValue → Except EvalErr ℝ
  | none => .error .parseFailure
  | some (.fnV _) => .error .incompleteFunctionCall
  | some (.num (.fin x)) => .ok (round14 x)
  | some (.num _) => .error .nonFiniteResult
  | some _ => .error .unsupportedResultType

/-- The `try` block of `evalStrict` (part_001): canonicalize, parse,
transform `log`/`ln`, evaluate, and apply the guards. -/
noncomputable def evalStrictCore (expr mode : String) : Except EvalErr ℝ :=
  match parseE (canonStr expr mode) with
  | none => .error .parseFailure
  | some a => evalGuards (evalV (transformLogLn a))

/-- `evalStrict` of part_001: the `ALLOWED` token gate runs first and
fails with the disallowed-token error before anything else; the whole
parse/transform/evaluate/guard block runs inside a `try` whose `catch`
rethrows every error as the generic "Invalid mathematical expression". -/
noncomputable def evalStrict (expr mode : String) : Except EvalErr ℝ :=
  if allowedTokens expr then
    match evalStrictCore expr mode with
    | .ok v => .ok v
    | .error _ => .error .invalidExpression
  else .error .disallowedToken

/-- Direct evaluation of the same input without the canonicalization
rewrites and without the `log`/`ln` transform (the comparison point for
the canonicalization-is-a-no-op property). -/
noncomputable def evalDirect (expr : String) : Except EvalErr ℝ :=
  if allowedTokens expr then
    match (match parseE expr with
           | none => .error .parseFailure
           | some a => evalGuards (evalV a) : Except EvalErr ℝ) with
    | .ok v => .ok v
    | .error _ => .error .invalidExpression
  else .error .disallowedToken

/-! ### The server-variant evaluator (`server/index.js`, first variant)

This `evalStrict` has no token gate, no `log`→`log10` transform, no
rounding and no result guards: it returns the evaluated value when it
is a JS number (including `Infinity` and `NaN`) and otherwise the
`math.format` rendering of the value. -/

/-- The `/deg\b/i` test on a trig argument (no boundary on the left). -/
def hasDegWord : Nat → List Char → Bool
  | 0, _ => false
  | _ + 1, [] => false
  | fuel + 1, c :: cs =>
    (match matchCI "deg".toList (c :: cs) with
     | some rest => headNotWord rest
     | none => false) ||
    hasDegWord fuel cs

/-- First of `sin`, `cos`, `tan` matching (case-insensitively) at this
position, with the rest of the input. -/
def firstTrigMatch (cs : List Char) : Option (List Char × List Char) :=
  match matchCI "sin".toList cs with
  | some r => some ("sin".toList, r)
  | none =>
    match matchCI "cos".toList cs with
    | some r => some ("cos".toList, r)
    | none =>
      match matchCI "tan".toList cs with
      | some r => some ("tan".toList, r)
      | none => none

/-- The text of a match: the input minus the rest that follows it. -/
def matchedText (cs rest : List Char) : List Char :=
  cs.take (cs.length - rest.length)

/-- One scan step family of `transformForDegrees`:
`s.replace(/(sin|cos|tan)\(([^()]+)\)/gi, (m, fn, arg) => ...)` where a
match whose argument already contains the word `deg` is kept unchanged
(`m`) and any other match becomes `fn + "(" + arg + " deg)"`.  The
pattern has no `\b` and no `\s*`; `[^()]+` excludes both parentheses;
in both cases the scan continues after the matched text. -/
def transformForDegreesF : Nat → List Char → List Char
  | 0, cs => cs
  | _ + 1, [] => []
  | fuel + 1, c :: cs =>
    match firstTrigMatch (c :: cs) with
    | some (fn, r1) =>
      match r1 with
      | '(' :: r2 =>
        let arg := r2.takeWhile fun x => !(x == '(') && !(x == ')')
        match arg, r2.dropWhile (fun x => !(x == '(') && !(x == ')')) with
        | _ :: _, ')' :: rest =>
          if hasDegWord arg.length arg then
            (matchedText (c :: cs) rest) ++ transformForDegreesF fuel rest
          else
            (fn ++ '(' :: arg ++ " deg)".toList) ++
              transformForDegreesF fuel rest
        | _, _ => c :: transformForDegreesF fuel cs
      | _ => c :: transformForDegreesF fuel cs
    | none => c :: transformForDegreesF fuel cs

/-- `transformForDegrees` on strings. -/
def transformForDegrees (s : String) : String :=
  ⟨transformForDegreesF s.toList.length s.toList⟩

/-- Global replace of `\bln\(` (case-insensitive) by `log(`. -/
def lnToLogF : Nat → Option Char → List Char → List Char
  | 0, _, cs => cs
  | _ + 1, _, [] => []
  | fuel + 1, prev, c :: cs =>
    match (if boundaryOK prev then matchCI "ln".toList (c :: cs) else none) with
    | some ('(' :: rest) => "log(".toList ++ lnToLogF fuel (some '(') rest
    | _ => c :: lnToLogF fuel (some c) cs

/-- String-level `q.replace(/\bln\(/gi, "log(")`. -/
def lnToLog (s : String) : String := ⟨lnToLogF s.toList.length none s.toList⟩

/-- Result of the server-variant evaluator: a JS number (possibly
non-finite), or a `math.format` rendering of a non-number value. -/
inductive ServerOut where
  | numOut : JSNum → ServerOut
  | formatted : ServerOut

/-- The server-variant `evalStrict(expr, angleMode)`: optional degree
transform (only when `angleMode` is exactly the string `DEG`), the
`ln(`→`log(` regex rewrite, then `math.evaluate`; `none` models a
thrown parse/evaluation error. -/
noncomputable def evalStrictServer (expr mode : String) : Option ServerOut :=
  let q :=
    if (if mode = "" then "RAD" else mode) = "DEG" then
      lnToLog (transformForDegrees expr)
    else lnToLog expr
  match parseE q with
  | none => none
  | some a =>
    match evalV a with
    | none => none
    | some (.num j) => some (.numOut j)
    | some _ => some .formatted

/-! ### Orchestrator predicates (part_001 route helpers) -/

/-- First matching alternative of an (ordered) alternation, returning
the rest of the input after the match. -/
def firstAlt : List (List Char) → List Char → Option (List Char)
  | [], _ => none
  | w :: ws, cs =>
    match matchCI w cs with
    | some rest => some rest
    | none => firstAlt ws cs

/-- The alternation of `isLikelyMath`'s `allowedWords` regex
`(sin|cos|tan|log10|ln|exp|sqrt|pi|deg|rad|e)`, in source order (note:
no `log`, and no word boundaries). -/
def likelyWordAlts : List (List Char) :=
  ["sin", "cos", "tan", "log10", "ln", "exp", "sqrt", "pi", "deg", "rad",
   "e"].map String.toList

/-- `s.replace(allowedWords, "")` of `isLikelyMath`: delete every
(leftmost, first-alternative) occurrence. -/
def stripAllowedF : Nat → List Char → List Char
  | 0, cs => cs
  | _ + 1, [] => []
  | fuel + 1, c :: cs =>
    match firstAlt likelyWordAlts (c :: cs) with
    | some rest => stripAllowedF fuel rest
    | none => c :: stripAllowedF fuel cs

/-- The character class `[\s0-9+\-*/^().,eE]`. -/
def mathyChar (c : Char) : Bool :=
  isWS c || c.isDigit || c == '+' || c == '-' || c == '*' || c == '/' ||
  c == '^' || c == '(' || c == ')' || c == '.' || c == ',' ||
  c == 'e' || c == 'E'

/-- `isLikelyMath`: after deleting the allowed words, the remainder must
match `^[\s0-9+\-*/^().,eE]+$` (in particular it must be nonempty). -/
def isLikelyMath (s : String) : Bool :=
  let st := stripAllowedF s.toList.length s.toList
  !st.isEmpty && st.all mathyChar

/-- Containment of a `\b(alt|…)\b` alternation (case-insensitive),
where each alternative is a literal (possibly containing a space, as in
`to the`). -/
def containsWordAlt (alts : List (List Char)) :
    Nat → Option Char → List Char → Bool
  | 0, _, _ => false
  | _ + 1, _, [] => false
  | fuel + 1, prev, c :: cs =>
    (boundaryOK prev &&
      alts.any fun w =>
        match matchCI w (c :: cs) with
        | some rest => headNotWord rest
        | none => false) ||
    containsWordAlt alts fuel (some c) cs

/-- `hasOpOrFunc`: an operator character `[+\-*/^()]` or a function
word `\b(sin|cos|tan|log10|ln|exp|sqrt)\b` (note: `log` itself is not
in this list). -/
def hasOpOrFunc (s : String) : Bool :=
  (s.toList.any fun c =>
    c == '+' || c == '-' || c == '*' || c == '/' || c == '^' ||
    c == '(' || c == ')') ||
  containsWordAlt
    (["sin", "cos", "tan", "log10", "ln", "exp", "sqrt"].map String.toList)
    s.toList.length none s.toList

/-- `hasDigitOrConst`: a digit or `\b(pi|e)\b`. -/
def hasDigitOrConst (s : String) : Bool :=
  (s.toList.any Char.isDigit) ||
  containsWordAlt (["pi", "e"].map String.toList) s.toList.length none
    s.toList

/-- The `mathWords` alternation of `isNaturalLanguage` (part_001), in
source order; `to the` is a literal containing a space. -/
def mathWordAlts : List (List Char) :=
  ["plus", "minus", "times", "divided", "multiply", "subtract", "add",
   "square", "root", "sine", "cosine", "tangent", "log", "logarithm",
   "exponential", "power", "raised", "to the", "of", "what", "is",
   "calculate", "compute", "solve", "evaluate"].map String.toList

/-- The `numberWords` alternation of `isNaturalLanguage`. -/
def numberWordAlts : List (List Char) :=
  ["zero", "one", "two", "three", "four", "five", "six", "seven", "eight",
   "nine", "ten", "eleven", "twelve", "thirteen", "fourteen", "fifteen",
   "sixteen", "seventeen", "eighteen", "nineteen", "twenty", "thirty",
   "forty", "fifty", "sixty", "seventy", "eighty", "ninety", "hundred",
   "thousand", "million"].map String.toList

/-- `isNaturalLanguage`: a math word or a number word is present. -/
def isNaturalLanguage (s : String) : Bool :=
  containsWordAlt mathWordAlts s.toList.length none s.toList ||
  containsWordAlt numberWordAlts s.toList.length none s.toList

/-- Match of one boilerplate alternative of `tryStripEnglish`
(part_001): a sequence of words separated by `\s+`. -/
def matchPhrase : List (List Char) → List Char → Option (List Char)
  | [], cs => some cs
  | [w], cs => matchCI w cs
  | w :: ws, cs =>
    match matchCI w cs with
    | none => none
    | some r =>
      match r with
      | c :: _ =>
        if isWS c then matchPhrase ws (dropWS r) else none
      | [] => none

/-- The boilerplate alternation
`\b(what\s+is|calculate|compute|please|solve|evaluate|the\s+answer\s+to)\b`. -/
def boilerAlts : List (List (List Char)) :=
  [[ "what".toList, "is".toList ],
   [ "calculate".toList ],
   [ "compute".toList ],
   [ "please".toList ],
   [ "solve".toList ],
   [ "evaluate".toList ],
   [ "the".toList, "answer".toList, "to".toList ]]

/-- First boilerplate alternative matching at this position with a
right word boundary. -/
def firstPhrase (alts : List (List (List Char))) (cs : List Char) :
    Option (List Char) :=
  match alts with
  | [] => none
  | p :: ps =>
    match matchPhrase p cs with
    | some rest => if headNotWord rest then some rest else firstPhrase ps cs
    | none => firstPhrase ps cs

/-- Replace every boilerplate phrase by a single space. -/
def stripBoilerF : Nat → Option Char → List Char → List Char
  | 0, _, cs => cs
  | _ + 1, _, [] => []
  | fuel + 1, prev, c :: cs =>
    match (if boundaryOK prev then firstPhrase boilerAlts (c :: cs)
           else none) with
    | some rest => ' ' :: stripBoilerF fuel (some 'a') rest
    | none => c :: stripBoilerF fuel (some c) cs

/-- Collapse whitespace runs to single spaces (`\s+` → `" "`),
fuel-bounded. -/
def collapseWSF : Nat → List Char → List Char
  | 0, cs => cs
  | _ + 1, [] => []
  | fuel + 1, c :: cs =>
    if isWS c then ' ' :: collapseWSF fuel (cs.dropWhile isWS)
    else c :: collapseWSF fuel cs

/-- Trim of leading and trailing whitespace (JS `String.trim`). -/
def trimJS (s : String) : String :=
  ⟨((s.toList.dropWhile isWS).reverse.dropWhile isWS).reverse⟩

/-- `tryStripEnglish` (part_001): delete the lead-in phrases, collapse
whitespace, and trim. -/
def tryStripEnglish (s : String) : String :=
  let t := stripBoilerF s.toList.length none s.toList
  trimJS (String.mk (collapseWSF t.length t))

/-- The special-case test `^log\s*\(\s*\d+(?:\.\d+)?\s*\)$` (i). -/
def matchesLogRe1 (s : String) : Bool :=
  match matchCI "log".toList s.toList with
  | none => false
  | some r =>
    match dropWS r with
    | '(' :: r2 =>
      match takeNum (dropWS r2) with
      | some (_, r3) => dropWS r3 = [')']
      | none => false
    | _ => false

/-- The special-case test
`^log\s*\(\s*\d+(?:\.\d+)?\s*,\s*\d+(?:\.\d+)?\s*\)$` (i). -/
def matchesLogRe2 (s : String) : Bool :=
  match matchCI "log".toList s.toList with
  | none => false
  | some r =>
    match dropWS r with
    | '(' :: r2 =>
      match takeNum (dropWS r2) with
      | some (_, r3) =>
        match dropWS r3 with
        | ',' :: r4 =>
          match takeNum (dropWS r4) with
          | some (_, r5) => dropWS r5 = [')']
          | none => false
        | _ => false
      | none => false
    | _ => false

/-! ### The `/api/eval` orchestrator (part_001)

The single network call to the remote normalizer is modelled by the
parameter `aiResp : Option String` (`none` when `normalizeWithAI`
returned `null`).  The route's JSON responses are modelled by
`RouteRes`; the branch that produced the response is recorded in
`RoutePath`. -/

/-- User-facing error outcomes of the route. -/
inductive ErrMsg where
  | missingExpression
  | evalMsg : EvalErr → ErrMsg
  | couldNotParseNL
  | couldNotUnderstand
deriving DecidableEq, Repr

/-- JSON response of the route: `{result, normalized?}` on success,
`{error, normalized?}` on failure. -/
inductive RouteRes where
  | ok : ℝ → Option String → RouteRes
  | err : ErrMsg → Option String → RouteRes

/-- The branch of the route that produced the response. -/
inductive RoutePath where
  | missing | logOne | logTwo | nl | direct | strippedP | finalAI
deriving DecidableEq, Repr

/-- The `/api/eval` handler of part_001: trim; reject empty; evaluate
`log(n)` and `log(n, b)` inputs directly; send natural language to the
AI; evaluate "already math" input (full three-part gate) directly with
fall-through on failure; retry on the stripped text (when changed and
passing the gate) with fall-through; finally evaluate the AI
normalization of the input. -/
noncomputable def route (expr mode : String) (aiResp : Option String) :
    RouteRes × RoutePath :=
  let text := trimJS expr
  if text = "" then (.err .missingExpression none, .missing)
  else
    let m := if mode = "" then "RAD" else mode
    if matchesLogRe1 text then
      (match evalStrict text m with
       | .ok v => .ok v (some text)
       | .error e => .err (.evalMsg e) none, .logOne)
    else if matchesLogRe2 text then
      (match evalStrict text m with
       | .ok v => .ok v (some text)
       | .error e => .err (.evalMsg e) none, .logTwo)
    else if isNaturalLanguage text then
      (match aiResp with
       | none => (.err .couldNotParseNL none, .nl)
       | some n =>
         (match evalStrict n m with
          | .ok v => (.ok v (some n), .nl)
          | .error e => (.err (.evalMsg e) (some n), .nl)))
    else
      let directTry : Option RouteRes :=
        if isLikelyMath text && hasOpOrFunc text && hasDigitOrConst text then
          match evalStrict text m with
          | .ok v => some (.ok v (some text))
          | .error _ => none
        else none
      match directTry with
      | some r => (r, .direct)
      | none =>
        let stripped := tryStripEnglish text
        let strippedTry : Option RouteRes :=
          if stripped ≠ "" && stripped ≠ text && isLikelyMath stripped &&
              hasOpOrFunc stripped && hasDigitOrConst stripped then
            match evalStrict stripped m with
            | .ok v => some (.ok v (some stripped))
            | .error _ => none
          else none
        match strippedTry with
        | some r => (r, .strippedP)
        | none =>
          match aiResp with
          | none => (.err .couldNotUnderstand none, .finalAI)
          | some n =>
            (match evalStrict n m with
             | .ok v => (.ok v (some n), .finalAI)
             | .error e => (.err (.evalMsg e) (some n), .finalAI))

/-! ### Client history (App variants)

`setHistory(h => [{ in: trimmed, out }, ...h].slice(0, 20))` on every
successful evaluation. -/

/-- One history entry `{ in, out }`. -/
structure HistoryEntry where
  inp : String
  outp : String
deriving DecidableEq, Repr

/-- The history update of `handleEquals`: prepend and truncate to 20. -/
def pushHistory (e : HistoryEntry) (h : List HistoryEntry) :
    List HistoryEntry :=
  (e :: h).take 20

/-- A sequence of successful evaluations applied to a history list. -/
def applyAll (es : List HistoryEntry) (h : List HistoryEntry) :
    List HistoryEntry :=
  es.foldl (fun acc e => pushHistory e acc) h

/-! ### Helper lemmas for concrete evaluations -/

theorem evalStrictCore_parse {expr mode : String} {a : Ast}
    (h : parseE (canonStr expr mode) = some a) :
    evalStrictCore expr mode = evalGuards (evalV (transformLogLn a)) := by
  unfold evalStrictCore
  rw [h]

theorem evalStrict_ok {expr mode : String} {v : ℝ}
    (hg : allowedTokens expr = true)
    (h : evalStrictCore expr mode = .ok v) : evalStrict expr mode = .ok v := by
  unfold evalStrict
  rw [hg, h]
  rfl

theorem evalStrict_err {expr mode : String} {e : EvalErr}
    (hg : allowedTokens expr = true)
    (h : evalStrictCore expr mode = .error e) :
    evalStrict expr mode = .error .invalidExpression := by
  unfold evalStrict
  rw [hg, h]
  rfl

theorem round14_intLike {x : ℝ} {n : ℤ} (h : x * 10 ^ 14 = (n : ℝ)) :
    round14 x = (n : ℝ) / 10 ^ 14 := by
  rw [round14, h, round_intCast]

theorem round14_two : round14 2 = 2 := by
  rw [round14_intLike (n := 200000000000000) (by norm_num)]
  norm_num

theorem round14_one : round14 1 = 1 := by
  rw [round14_intLike (n := 100000000000000) (by norm_num)]
  norm_num

theorem round14_four : round14 4 = 4 := by
  rw [round14_intLike (n := 400000000000000) (by norm_num)]
  norm_num

theorem round14_five : round14 5 = 5 := by
  rw [round14_intLike (n := 500000000000000) (by norm_num)]
  norm_num

theorem round14_half : round14 (1 / 2) = 1 / 2 := by
  rw [round14_intLike (n := 50000000000000) (by norm_num)]
  norm_num

/-- A negative real rounds to a nonpositive value at 14 places. -/
theorem round14_nonpos_of_neg {x : ℝ} (h : x < 0) : round14 x ≤ 0 := by
  rw [round14]
  have h1 : x * 10 ^ 14 < 0 := by
    apply mul_neg_of_neg_of_pos h
    norm_num
  have h2 : round (x * 10 ^ 14) ≤ 0 := by
    rw [round_eq]
    have : (⌊x * 10 ^ 14 + 1 / 2⌋ : ℤ) < 1 := by
      rw [Int.floor_lt]
      push_cast
      linarith
    omega
  have h3 : ((round (x * 10 ^ 14) : ℤ) : ℝ) ≤ 0 := by exact_mod_cast h2
  have h4 : (0 : ℝ) < 10 ^ 14 := by norm_num
  exact div_nonpos_of_nonpos_of_nonneg h3 (le_of_lt h4)

/-! ### Concrete pipeline evaluations -/

theorem logb_ten_hundred : Real.logb 10 100 = 2 := by
  have h : (100 : ℝ) = 10 ^ (2 : ℕ) := by norm_num
  rw [h, Real.logb_pow, Real.logb_self_eq_one (by norm_num)]
  norm_num

theorem evalLog100 : evalStrict "log(100)" "RAD" = .ok 2 := by
  have hp : parseE (canonStr "log(100)" "RAD") =
      some (Ast.call "log" [Ast.num 100 0]) := by
    rw [show canonStr "log(100)" "RAD" = "log(100)" by decide]
    exact optAstBeq_sound (by decide)
  apply evalStrict_ok (by decide)
  rw [evalStrictCore_parse hp,
    show transformLogLn (Ast.call "log" [Ast.num 100 0]) =
      Ast.call "log10" [Ast.num 100 0] from rfl,
    show evalV (Ast.call "log10" [Ast.num 100 0]) =
      some (.num (.fin (Real.logb 10 100))) by
        simp [evalV, evalArgs, applyFn, applyLog10]]
  rw [show evalGuards (some (.num (.fin (Real.logb 10 100)))) =
    .ok (round14 (Real.logb 10 100)) from rfl]
  rw [logb_ten_hundred, round14_two]

theorem evalLog100Base2 :
    evalStrict "log(100, 2)" "RAD" = .ok (round14 (Real.logb 2 100)) := by
  have hp : parseE (canonStr "log(100, 2)" "RAD") =
      some (Ast.call "log" [Ast.num 100 0, Ast.num 2 0]) := by
    rw [show canonStr "log(100, 2)" "RAD" = "log(100, 2)" by decide]
    exact optAstBeq_sound (by decide)
  apply evalStrict_ok (by decide)
  rw [evalStrictCore_parse hp,
    show transformLogLn (Ast.call "log" [Ast.num 100 0, Ast.num 2 0]) =
      Ast.call "log" [Ast.num 100 0, Ast.num 2 0] from rfl]
  have h2 : Real.log 2 ≠ 0 := ne_of_gt (Real.log_pos (by norm_num))
  rw [show evalV (Ast.call "log" [Ast.num 100 0, Ast.num 2 0]) =
      some (.num (.fin (Real.logb 2 100))) by
    simp [evalV, evalArgs, applyFn, applyLog, logOne, valueBin, jsDiv, h2,
      Real.logb]]
  rfl

theorem evalLnE : evalStrict "ln(e)" "RAD" = .ok 1 := by
  have hp : parseE (canonStr "ln(e)" "RAD") =
      some (Ast.call "ln" [Ast.sym "e"]) := by
    rw [show canonStr "ln(e)" "RAD" = "ln(e)" by decide]
    exact optAstBeq_sound (by decide)
  apply evalStrict_ok (by decide)
  rw [evalStrictCore_parse hp,
    show transformLogLn (Ast.call "ln" [Ast.sym "e"]) =
      Ast.call "log" [Ast.sym "e"] from rfl,
    show evalV (Ast.call "log" [Ast.sym "e"]) = some (.num (.fin 1)) by
      simp [evalV, evalArgs, applyFn, applyLog, evalSym, logOne,
        Real.exp_pos, Real.log_exp]]
  rw [show evalGuards (some (.num (.fin 1))) = .ok (round14 1) from rfl,
    round14_one]

theorem evalOneOverZero_core :
    evalStrictCore "1/0" "RAD" = .error .nonFiniteResult := by
  have hp : parseE (canonStr "1/0" "RAD") =
      some (Ast.div (Ast.num 1 0) (Ast.num 0 0)) := by
    rw [show canonStr "1/0" "RAD" = "1/0" by decide]
    exact optAstBeq_sound (by decide)
  rw [evalStrictCore_parse hp,
    show transformLogLn (Ast.div (Ast.num 1 0) (Ast.num 0 0)) =
      Ast.div (Ast.num 1 0) (Ast.num 0 0) from rfl,
    show evalV (Ast.div (Ast.num 1 0) (Ast.num 0 0)) = some (.num .inf) by
      simp [evalV, valueBin, jsDiv]]
  rfl

theorem evalSqrtNegOne_core :
    evalStrictCore "sqrt(-1)" "RAD" = .error .unsupportedResultType := by
  have hp : parseE (canonStr "sqrt(-1)" "RAD") =
      some (Ast.call "sqrt" [Ast.neg (Ast.num 1 0)]) := by
    rw [show canonStr "sqrt(-1)" "RAD" = "sqrt(-1)" by decide]
    exact optAstBeq_sound (by decide)
  rw [evalStrictCore_parse hp,
    show transformLogLn (Ast.call "sqrt" [Ast.neg (Ast.num 1 0)]) =
      Ast.call "sqrt" [Ast.neg (Ast.num 1 0)] from rfl,
    show evalV (Ast.call "sqrt" [Ast.neg (Ast.num 1 0)]) =
      some (.cplx { re := 0, im := Real.sqrt 1 }) by
        simp [evalV, evalArgs, applyFn, applySqrt, valueNeg, jsNeg]]
  rfl

theorem evalBareLog10_core :
    evalStrictCore "log10" "RAD" = .error .incompleteFunctionCall := by
  have hp : parseE (canonStr "log10" "RAD") = some (Ast.sym "log10") := by
    rw [show canonStr "log10" "RAD" = "log10" by decide]
    exact optAstBeq_sound (by decide)
  rw [evalStrictCore_parse hp,
    show transformLogLn (Ast.sym "log10") = Ast.sym "log10" from rfl,
    show evalV (Ast.sym "log10") = some (.fnV "log10") by
      simp [evalV, evalSym]]
  rfl

theorem evalServer_one_over_zero :
    evalStrictServer "1/0" "RAD" = some (.numOut .inf) := by
  unfold evalStrictServer
  simp only [String.reduceEq, if_false, reduceIte]
  rw [show lnToLog "1/0" = "1/0" by decide]
  rw [show parseE "1/0" = some (Ast.div (Ast.num 1 0) (Ast.num 0 0)) from
    optAstBeq_sound (by decide)]
  simp only [show evalV (Ast.div (Ast.num 1 0) (Ast.num 0 0)) =
    some (MathValue.num JSNum.inf) from by simp [evalV, valueBin, jsDiv]]

theorem sin30_neg : Real.sin 30 < 0 := by
  have hper := Real.sin_add_int_mul_two_pi (30 - 10 * Real.pi) 5
  have harg : (30 - 10 * Real.pi) + (5 : ℤ) * (2 * Real.pi) = 30 := by
    push_cast; ring
  rw [harg] at hper
  have hpi1 : Real.pi < 3.15 := lt_trans Real.pi_lt_d6 (by norm_num)
  have hpi2 : 3 < Real.pi := Real.pi_gt_three
  have hx1 : 30 - 10 * Real.pi < 0 := by nlinarith
  have hx2 : -Real.pi < 30 - 10 * Real.pi := by nlinarith
  rw [hper]
  exact Real.sin_neg_of_neg_of_neg_pi_lt hx1 hx2

theorem round14_sin30_ne_half : round14 (Real.sin 30) ≠ 1 / 2 := by
  have h := round14_nonpos_of_neg sin30_neg
  intro hcontra
  rw [hcontra] at h
  norm_num at h

theorem evalSin30_DEG : evalStrict "sin(30)" "DEG" = .ok (1 / 2) := by
  have hp : parseE (canonStr "sin(30)" "DEG") =
      some (Ast.call "sin"
        [Ast.div (Ast.mul (Ast.num 30 0) (Ast.sym "pi")) (Ast.num 180 0)]) := by
    rw [show canonStr "sin(30)" "DEG" = "sin((30) * pi / 180)" by decide]
    exact optAstBeq_sound (by decide)
  apply evalStrict_ok (by decide)
  rw [evalStrictCore_parse hp]
  rw [show transformLogLn (Ast.call "sin"
      [Ast.div (Ast.mul (Ast.num 30 0) (Ast.sym "pi")) (Ast.num 180 0)]) =
    Ast.call "sin"
      [Ast.div (Ast.mul (Ast.num 30 0) (Ast.sym "pi")) (Ast.num 180 0)]
    from rfl]
  rw [show evalV (Ast.call "sin"
      [Ast.div (Ast.mul (Ast.num 30 0) (Ast.sym "pi")) (Ast.num 180 0)]) =
    some (.num (.fin (Real.sin (30 * Real.pi / 180)))) by
      simp [evalV, evalArgs, applyFn, applySin, evalSym, valueBin, jsMul,
        jsDiv, Real.pi_ne_zero]]
  rw [show (30 : ℝ) * Real.pi / 180 = Real.pi / 6 by ring]
  rw [show evalGuards (some (.num (.fin (Real.sin (Real.pi / 6))))) =
    .ok (round14 (Real.sin (Real.pi / 6))) from rfl]
  rw [Real.sin_pi_div_six, round14_half]

theorem evalSin30_RAD :
    evalStrict "sin(30)" "RAD" = .ok (round14 (Real.sin 30)) := by
  have hp : parseE (canonStr "sin(30)" "RAD") =
      some (Ast.call "sin" [Ast.num 30 0]) := by
    rw [show canonStr "sin(30)" "RAD" = "sin(30)" by decide]
    exact optAstBeq_sound (by decide)
  apply evalStrict_ok (by decide)
  rw [evalStrictCore_parse hp,
    show transformLogLn (Ast.call "sin" [Ast.num 30 0]) =
      Ast.call "sin" [Ast.num 30 0] from rfl,
    show evalV (Ast.call "sin" [Ast.num 30 0]) =
      some (.num (.fin (Real.sin 30))) by
        simp [evalV, evalArgs, applyFn, applySin]]
  rfl

theorem evalSinParen_DEG :
    evalStrict "sin((0)+30)" "DEG" = .ok (round14 (Real.sin 30)) := by
  have hp : parseE (canonStr "sin((0)+30)" "DEG") =
      some (Ast.call "sin"
        [Ast.add (Ast.div (Ast.mul (Ast.num 0 0) (Ast.sym "pi"))
          (Ast.num 180 0)) (Ast.num 30 0)]) := by
    rw [show canonStr "sin((0)+30)" "DEG" = "sin(((0) * pi / 180)+30)"
      by decide]
    exact optAstBeq_sound (by decide)
  apply evalStrict_ok (by decide)
  rw [evalStrictCore_parse hp]
  rw [show transformLogLn (Ast.call "sin"
      [Ast.add (Ast.div (Ast.mul (Ast.num 0 0) (Ast.sym "pi"))
        (Ast.num 180 0)) (Ast.num 30 0)]) =
    Ast.call "sin"
      [Ast.add (Ast.div (Ast.mul (Ast.num 0 0) (Ast.sym "pi"))
        (Ast.num 180 0)) (Ast.num 30 0)] from rfl]
  rw [show evalV (Ast.call "sin"
      [Ast.add (Ast.div (Ast.mul (Ast.num 0 0) (Ast.sym "pi"))
        (Ast.num 180 0)) (Ast.num 30 0)]) =
    some (.num (.fin (Real.sin 30))) by
      simp [evalV, evalArgs, applyFn, applySin, evalSym, valueBin, jsMul,
        jsDiv, jsAdd]]
  rfl

/-! ### Claim theorems -/

/-- C1: through the canonicalizer and Strict Evaluator (part_001's
`evalStrict`), a single-argument `log` call uses base-10 semantics and
`ln` natural-log semantics: `log(100)` evaluates to 2; the two-argument
`log(100, 2)` is left alone by the rewrite and evaluates to the base-2
logarithm of 100 (rounded to 14 places, as all results are); and
`ln(e)` evaluates to 1. -/
theorem log_ln_conventions :
    evalStrict "log(100)" "RAD" = .ok 2 ∧
    evalStrict "log(100, 2)" "RAD" = .ok (round14 (Real.logb 2 100)) ∧
    evalStrict "ln(e)" "RAD" = .ok 1 :=
  ⟨evalLog100, evalLog100Base2, evalLnE⟩

/-- C5 (code bug): on `1/0` the inner guard of part_001's `evalStrict`
does detect the non-finite value (the `try` block fails with the
non-finite-result error), but the surrounding `catch` replaces it with
the generic invalid-expression error, so `NonFiniteResult` never
reaches the caller; the server-variant `evalStrict` has no guard at all
and returns `Infinity` as the value.  Likewise the complex result of
`sqrt(-1)` is detected as unsupported inside the `try` and surfaces as
the generic error. -/
theorem nonfinite_guard_swallowed :
    evalStrictCore "1/0" "RAD" = .error .nonFiniteResult ∧
    evalStrict "1/0" "RAD" = .error .invalidExpression ∧
    evalStrictServer "1/0" "RAD" = some (.numOut .inf) ∧
    evalStrictCore "sqrt(-1)" "RAD" = .error .unsupportedResultType ∧
    evalStrict "sqrt(-1)" "RAD" = .error .invalidExpression :=
  ⟨evalOneOverZero_core,
   evalStrict_err (by decide) evalOneOverZero_core,
   evalServer_one_over_zero,
   evalSqrtNegOne_core,
   evalStrict_err (by decide) evalSqrtNegOne_core⟩

/-- C6 (code bug): a bare function name (`log10`) evaluates to a
callable and the inner guard of part_001's `evalStrict` fails with the
incomplete-function-call error, but the surrounding `catch` replaces it
with the generic invalid-expression error, so `IncompleteFunctionCall`
never reaches the caller. -/
theorem incomplete_call_guard_swallowed :
    evalStrictCore "log10" "RAD" = .error .incompleteFunctionCall ∧
    evalStrict "log10" "RAD" = .error .invalidExpression :=
  ⟨evalBareLog10_core, evalStrict_err (by decide) evalBareLog10_core⟩

theorem eval5 : evalStrict "5" "RAD" = .ok 5 := by
  have hp : parseE (canonStr "5" "RAD") = some (Ast.num 5 0) := by
    rw [show canonStr "5" "RAD" = "5" by decide]
    exact optAstBeq_sound (by decide)
  apply evalStrict_ok (by decide)
  rw [evalStrictCore_parse hp,
    show transformLogLn (Ast.num 5 0) = Ast.num 5 0 from rfl,
    show evalV (Ast.num 5 0) = some (.num (.fin 5)) by simp [evalV]]
  rw [show evalGuards (some (.num (.fin 5))) = .ok (round14 5) from rfl,
    round14_five]

theorem eval2plus2 : evalStrict "2+2" "RAD" = .ok 4 := by
  have hp : parseE (canonStr "2+2" "RAD") =
      some (Ast.add (Ast.num 2 0) (Ast.num 2 0)) := by
    rw [show canonStr "2+2" "RAD" = "2+2" by decide]
    exact optAstBeq_sound (by decide)
  apply evalStrict_ok (by decide)
  rw [evalStrictCore_parse hp,
    show transformLogLn (Ast.add (Ast.num 2 0) (Ast.num 2 0)) =
      Ast.add (Ast.num 2 0) (Ast.num 2 0) from rfl,
    show evalV (Ast.add (Ast.num 2 0) (Ast.num 2 0)) =
      some (.num (.fin 4)) by norm_num [evalV, valueBin, jsAdd]]
  rw [show evalGuards (some (.num (.fin 4))) = .ok (round14 4) from rfl,
    round14_four]

theorem evalSqrt16 : evalStrict "sqrt(16)" "RAD" = .ok 4 := by
  have hp : parseE (canonStr "sqrt(16)" "RAD") =
      some (Ast.call "sqrt" [Ast.num 16 0]) := by
    rw [show canonStr "sqrt(16)" "RAD" = "sqrt(16)" by decide]
    exact optAstBeq_sound (by decide)
  apply evalStrict_ok (by decide)
  have h16 : Real.sqrt 16 = 4 := by
    rw [show (16 : ℝ) = 4 ^ 2 by norm_num]
    exact Real.sqrt_sq (by norm_num)
  rw [evalStrictCore_parse hp,
    show transformLogLn (Ast.call "sqrt" [Ast.num 16 0]) =
      Ast.call "sqrt" [Ast.num 16 0] from rfl,
    show evalV (Ast.call "sqrt" [Ast.num 16 0]) =
      some (.num (.fin 4)) by
        simp [evalV, evalArgs, applyFn, applySqrt, h16]]
  rw [show evalGuards (some (.num (.fin 4))) = .ok (round14 4) from rfl,
    round14_four]

/-- C7 counterexample: in DEG mode a trig call whose argument contains
parentheses is only partially wrapped (`[^)]+` stops at the first `)`),
so `sin((0)+30)` evaluates to `sin(30 radians)` and not to the
degree-semantics value `sin(30°) = 0.5`. -/
theorem deg_wrap_paren_counterexample :
    evalStrict "sin((0)+30)" "DEG" = .ok (round14 (Real.sin 30)) ∧
    round14 (Real.sin 30) ≠ 1 / 2 :=
  ⟨evalSinParen_DEG, round14_sin30_ne_half⟩

/-- C7 (amended): in DEG mode the canonicalizer wraps a trig argument
up to the first closing parenthesis; for a call whose argument contains
no parentheses the whole argument gets degree semantics — `sin(30)`
evaluates to `0.5` in DEG mode and to `sin(30 radians)` (a different
value) in RAD mode — while an argument containing parentheses may be
only partially converted. -/
theorem deg_wrap_unparenthesized :
    evalStrict "sin(30)" "DEG" = .ok (1 / 2) ∧
    evalStrict "sin(30)" "RAD" = .ok (round14 (Real.sin 30)) ∧
    round14 (Real.sin 30) ≠ 1 / 2 :=
  ⟨evalSin30_DEG, evalSin30_RAD, round14_sin30_ne_half⟩

theorem allowedTokens_chars {s : String} (h : allowedTokens s = true) :
    ∀ c ∈ s.toList, allowedChar c := by
  unfold allowedTokens at h
  rcases Bool.and_eq_true _ _ |>.mp h with ⟨_, h2⟩
  exact allowedFrom_chars _ _ h2

/-- C3: an input containing a character outside the allow-listed
alphabet (or failing the token decomposition altogether, e.g. a word
made of allowed letters that is not in the vocabulary) makes
`evalStrict` fail with the disallowed-token error, before any
canonicalization, parsing, or evaluation is attempted. -/
theorem disallowed_token_gate (s mode : String)
    (h : (∃ c ∈ s.toList, allowedChar c = false) ∨ allowedTokens s = false) :
    evalStrict s mode = .error .disallowedToken := by
  have hg : allowedTokens s = false := by
    rcases h with ⟨c, hc, hbad⟩ | h
    · by_contra hh
      have ht : allowedTokens s = true := by
        cases hgt : allowedTokens s with
        | true => rfl
        | false => exact absurd hgt hh
      have := allowedTokens_chars ht c hc
      rw [this] at hbad
      cases hbad
    · exact h
  unfold evalStrict
  rw [hg]
  rfl

/-- C3 witness: `hello` contains the disallowed character `h`. -/
theorem disallowed_token_gate_witness :
    evalStrict "hello" "RAD" = .error .disallowedToken :=
  disallowed_token_gate "hello" "RAD" (Or.inl ⟨'h', by decide, by decide⟩)

/-- C10: the strict evaluator is a pure function of the expression and
angle mode — two invocations on the same inputs produce the same
outcome (the embedding reads no mutable state and performs no
input/output). -/
theorem evalStrict_deterministic (expr mode : String)
    (r₁ r₂ : Except EvalErr ℝ)
    (h₁ : r₁ = evalStrict expr mode) (h₂ : r₂ = evalStrict expr mode) :
    r₁ = r₂ :=
  h₁.trans h₂.symm

/-- C10 witness at a concrete input. -/
theorem evalStrict_deterministic_witness :
    evalStrict "2+2" "RAD" = evalStrict "2+2" "RAD" :=
  evalStrict_deterministic "2+2" "RAD" _ _ rfl rfl

/-! ### Orchestrator behavior (C2, C4) -/

theorem route_log100 :
    route "log(100)" "RAD" none = (.ok 2 (some "log(100)"), .logOne) := by
  simp only [route]
  rw [show trimJS "log(100)" = "log(100)" by decide]
  rw [show matchesLogRe1 "log(100)" = true by decide]
  simp only [String.reduceEq, reduceIte, if_false, if_true]
  rw [evalLog100]

theorem route_five :
    route "five" "RAD" (some "5") = (.ok 5 (some "5"), .nl) := by
  simp only [route]
  rw [show trimJS "five" = "five" by decide]
  rw [show matchesLogRe1 "five" = false by decide,
    show matchesLogRe2 "five" = false by decide,
    show isNaturalLanguage "five" = true by decide]
  simp only [String.reduceEq, reduceIte, if_false, if_true,
    Bool.false_eq_true]
  rw [eval5]

theorem route_2plus2 :
    route "2+2" "RAD" none = (.ok 4 (some "2+2"), .direct) := by
  simp only [route]
  rw [show trimJS "2+2" = "2+2" by decide]
  rw [show matchesLogRe1 "2+2" = false by decide,
    show matchesLogRe2 "2+2" = false by decide,
    show isNaturalLanguage "2+2" = false by decide,
    show (isLikelyMath "2+2" && hasOpOrFunc "2+2" &&
      hasDigitOrConst "2+2") = true by decide]
  simp only [String.reduceEq, reduceIte, if_false, if_true,
    Bool.false_eq_true]
  rw [eval2plus2]

/-- C2 counterexample: the natural-language input `five` with the
remote-normalizer response `"5"` — a response with no operator or
function token (`hasOpOrFunc "5" = false`) — is evaluated and its value
`5` is returned with HTTP 200, not rejected. -/
theorem bare_numeric_ai_response_accepted :
    hasOpOrFunc "5" = false ∧
    route "five" "RAD" (some "5") = (.ok 5 (some "5"), .nl) :=
  ⟨by decide, route_five⟩

/-- C2 (amended): the orchestrator performs no operator-or-function
check on a remote-normalizer response — on the natural-language branch
the response `n` is handed directly to `evalStrict`, whatever it
contains, and the evaluator's verdict is returned as the HTTP
response. -/
theorem ai_response_evaluated_unchecked (expr mode n : String)
    (h0 : ¬ trimJS expr = "")
    (h1 : matchesLogRe1 (trimJS expr) = false)
    (h2 : matchesLogRe2 (trimJS expr) = false)
    (h3 : isNaturalLanguage (trimJS expr) = true) :
    route expr mode (some n) =
      (match evalStrict n (if mode = "" then "RAD" else mode) with
       | .ok v => (RouteRes.ok v (some n), RoutePath.nl)
       | .error e => (RouteRes.err (.evalMsg e) (some n), RoutePath.nl)) := by
  simp only [route, h1, h2, h3, if_neg h0, Bool.false_eq_true, if_false,
    if_true]

/-- C2 witness: the amended theorem applied at input `five` with
response `sqrt(16)`, which evaluates to `4`. -/
theorem ai_response_evaluated_unchecked_witness :
    route "five" "RAD" (some "sqrt(16)") = (.ok 4 (some "sqrt(16)"), .nl) := by
  rw [ai_response_evaluated_unchecked "five" "RAD" "sqrt(16)" (by decide)
    (by decide) (by decide) (by decide)]
  rw [show (if ("RAD" : String) = "" then "RAD" else "RAD") = "RAD" by simp]
  rw [evalSqrt16]

/-- C4 counterexample: `log(100)` fails `isLikelyMath` (its stripped
vocabulary has no bare `log`), yet the orchestrator evaluates it
locally through the `log(n)` special case. -/
theorem log_special_case_bypasses_gate :
    isLikelyMath "log(100)" = false ∧
    route "log(100)" "RAD" none = (.ok 2 (some "log(100)"), .logOne) :=
  ⟨by decide, route_log100⟩

/-- C4 (amended): the step-1 "already math" direct path is taken only
for inputs passing the full three-part gate
(`isLikelyMath ∧ hasOpOrFunc ∧ hasDigitOrConst`), but the orchestrator
first special-cases `log(n)` / `log(n, b)` inputs and evaluates them
directly even though they fail `isLikelyMath`. -/
theorem direct_path_requires_full_gate :
    (∀ expr mode resp out, route expr mode resp = (out, .direct) →
      isLikelyMath (trimJS expr) = true ∧
      hasOpOrFunc (trimJS expr) = true ∧
      hasDigitOrConst (trimJS expr) = true) ∧
    isLikelyMath "log(100)" = false ∧
    route "log(100)" "RAD" none = (.ok 2 (some "log(100)"), .logOne) := by
  refine ⟨?_, by decide, route_log100⟩
  intro expr mode resp out hr
  simp only [route] at hr
  split at hr
  · simp at hr
  · split at hr
    · simp at hr
    · split at hr
      · simp at hr
      · split at hr
        · split at hr
          · simp at hr
          · split at hr <;> simp at hr
        · split at hr
          case h_1 r heq =>
            split at heq
            case isTrue hgate =>
              rcases Bool.and_eq_true _ _ |>.mp hgate with ⟨g12, g3⟩
              rcases Bool.and_eq_true _ _ |>.mp g12 with ⟨g1, g2⟩
              exact ⟨g1, g2, g3⟩
            case isFalse => simp at heq
          case h_2 heq =>
            split at hr
            · simp at hr
            · split at hr
              · simp at hr
              · split at hr <;> simp at hr

/-- C4 witness: `2+2` is routed through the direct path, so the full
gate holds for it. -/
theorem direct_path_requires_full_gate_witness :
    isLikelyMath (trimJS "2+2") = true ∧
    hasOpOrFunc (trimJS "2+2") = true ∧
    hasDigitOrConst (trimJS "2+2") = true :=
  direct_path_requires_full_gate.1 "2+2" "RAD" none (.ok 4 (some "2+2"))
    route_2plus2

/-! ### History bound (C9) -/

theorem take_append_take (a b : List HistoryEntry) (n : ℕ) :
    (a ++ b.take n).take n = (a ++ b).take n := by
  rw [List.take_append_eq_append_take, List.take_append_eq_append_take,
    List.take_take]
  congr 1
  rw [Nat.min_eq_left (Nat.sub_le _ _)]

theorem applyAll_eq (es : List HistoryEntry) :
    ∀ h : List HistoryEntry, h.length ≤ 20 →
      applyAll es h = (es.reverse ++ h).take 20 := by
  induction es with
  | nil =>
    intro h hl
    simp only [applyAll, List.foldl_nil, List.reverse_nil, List.nil_append]
    rw [List.take_of_length_le hl]
  | cons e es ih =>
    intro h hl
    have step : applyAll (e :: es) h = applyAll es (pushHistory e h) := rfl
    rw [step, ih (pushHistory e h) (by simp [pushHistory])]
    rw [show (e :: es).reverse ++ h = es.reverse ++ (e :: h) by simp]
    rw [pushHistory, take_append_take]

/-- C9: starting from an empty history, any sequence of successful
evaluations leaves at most 20 entries, equal to the most recent
entries newest-first; in particular 25 successes leave exactly 20. -/
theorem history_bounded (es : List HistoryEntry) :
    (applyAll es []).length ≤ 20 ∧
    applyAll es [] = es.reverse.take 20 ∧
    (es.length = 25 → (applyAll es []).length = 20) := by
  have h := applyAll_eq es [] (by simp)
  rw [List.append_nil] at h
  refine ⟨?_, h, ?_⟩
  · rw [h]
    exact List.length_take_le 20 _
  · intro h25
    rw [h, List.length_take, List.length_reverse, h25]
    rfl

/-- C9 witness: 25 concrete entries. -/
theorem history_bounded_witness :
    (applyAll ((List.range 25).map fun i =>
      HistoryEntry.mk (toString i) "r") []).length = 20 :=
  (history_bounded _).2.2 (by simp)

/-! ### Canonicalization is a no-op on purely numeric/operator input (C8)

The class of "purely numeric/operator expressions": digits, decimal
point, the five operators, parentheses, comma, and whitespace — no
letters, hence no constants, units, or function calls. -/

/-- The purely numeric/operator character alphabet. -/
def numOpChars : List Char :=
  ['0', '1', '2', '3', '4', '5', '6', '7', '8', '9', '.',
   '+', '-', '*', '/', '^', '(', ')', ',', ' ', '\t', '\n', '\r']

theorem matchCI_cons_none {a : Char} {w cs : List Char} {c : Char}
    (h : (a.toLower == c.toLower) = false) :
    matchCI (a :: w) (c :: cs) = none := by
  simp [matchCI, h]

theorem matchCS_cons_none {a : Char} {w cs : List Char} {c : Char}
    (h : (a == c) = false) : matchCS (a :: w) (c :: cs) = none := by
  simp [matchCS, h]

theorem matchCI_nil_none {a : Char} {w : List Char} :
    matchCI (a :: w) [] = none := rfl

theorem replaceWordF_id (ci : Bool) (w repl : List Char)
    (hfail : ∀ c cs', c ∈ numOpChars → matchW ci w (c :: cs') = none) :
    ∀ fuel (prev : Option Char) (cs : List Char),
      (∀ c ∈ cs, c ∈ numOpChars) →
      replaceWordF ci w repl fuel prev cs = cs := by
  intro fuel
  induction fuel with
  | zero => intro prev cs _; rfl
  | succ fuel ih =>
    intro prev cs h
    match cs with
    | [] => rfl
    | c :: cs' =>
      have hm : (if boundaryOK prev then matchW ci w (c :: cs') else none) =
          none := by
        split
        · exact hfail c cs' (h c (by simp))
        · rfl
      simp only [replaceWordF, hm]
      rw [ih (some c) cs' fun x hx => h x (by simp [hx])]

theorem unitSubF_id (unit : List Char) (mkRepl : List Char → List Char)
    (hfail : ∀ c cs', c ∈ numOpChars → matchCI unit (c :: cs') = none)
    (hne : ∀ cs, cs = [] → matchCI unit cs = none) :
    ∀ fuel (cs : List Char), (∀ c ∈ cs, c ∈ numOpChars) →
      unitSubF unit mkRepl fuel cs = cs := by
  intro fuel
  induction fuel with
  | zero => intro cs _; rfl
  | succ fuel ih =>
    intro cs h
    match cs with
    | [] => rfl
    | c :: cs' =>
      rcases hn : takeNum (c :: cs') with _ | ⟨tok, rest⟩
      · simp only [unitSubF, hn]
        rw [ih cs' fun x hx => h x (by simp [hx])]
      · have hrest : ∀ x ∈ rest, x ∈ numOpChars := by
          rcases takeNum_split hn with ⟨hsp, _⟩
          intro x hx
          exact h x (by rw [← hsp]; simp [hx])
        have hdws : matchCI unit (dropWS rest) = none := by
          rcases hd : dropWS rest with _ | ⟨c0, r0⟩
          · exact hne _ rfl
          · have hc0 : c0 ∈ numOpChars := by
              apply hrest
              have : c0 ∈ dropWS rest := by rw [hd]; simp
              exact (List.dropWhile_sublist _).subset this
            exact hfail c0 r0 hc0
        simp only [unitSubF, hn, hdws]
        rw [ih cs' fun x hx => h x (by simp [hx])]

theorem trigSubF_id (fn : List Char)
    (hfail : ∀ c cs', c ∈ numOpChars → matchCI fn (c :: cs') = none) :
    ∀ fuel (prev : Option Char) (cs : List Char),
      (∀ c ∈ cs, c ∈ numOpChars) →
      trigSubF fn fuel prev cs = cs := by
  intro fuel
  induction fuel with
  | zero => intro prev cs _; rfl
  | succ fuel ih =>
    intro prev cs h
    match cs with
    | [] => rfl
    | c :: cs' =>
      have hm : (if boundaryOK prev then matchCI fn (c :: cs') else none) =
          none := by
        split
        · exact hfail c cs' (h c (by simp))
        · rfl
      simp only [trigSubF, hm]
      rw [ih (some c) cs' fun x hx => h x (by simp [hx])]

/-- Rebuilding a string from its character list. -/
theorem mk_toList (s : String) : String.mk s.toList = s := by
  cases s; rfl

theorem replaceWord_id {ci : Bool} {w repl s : String}
    (hfail : ∀ c cs', c ∈ numOpChars → matchW ci w.toList (c :: cs') = none)
    (h : ∀ c ∈ s.toList, c ∈ numOpChars) :
    replaceWord ci w repl s = s := by
  unfold replaceWord
  rw [replaceWordF_id ci w.toList repl.toList hfail _ none s.toList h]
  exact mk_toList s

theorem unitReplace_id {unit : String} {mkRepl : List Char → List Char}
    {s : String}
    (hfail : ∀ c cs', c ∈ numOpChars → matchCI unit.toList (c :: cs') = none)
    (hne : ∀ cs, cs = [] → matchCI unit.toList cs = none)
    (h : ∀ c ∈ s.toList, c ∈ numOpChars) :
    unitReplace unit mkRepl s = s := by
  unfold unitReplace
  rw [unitSubF_id unit.toList mkRepl hfail hne _ s.toList h]
  exact mk_toList s

theorem trigWrap_id {fn s : String}
    (hfail : ∀ c cs', c ∈ numOpChars → matchCI fn.toList (c :: cs') = none)
    (h : ∀ c ∈ s.toList, c ∈ numOpChars) :
    trigWrap fn s = s := by
  unfold trigWrap
  rw [trigSubF_id fn.toList hfail _ none s.toList h]
  exact mk_toList s

/-- The canonicalization phase is the identity on purely
numeric/operator strings. -/
theorem canonStr_id {s : String} (mode : String)
    (h : ∀ c ∈ s.toList, c ∈ numOpChars) :
    canonStr s mode = s := by
  have hpi : ∀ c cs', c ∈ numOpChars →
      matchW true "pi".toList (c :: cs') = none := by
    intro c cs' hc
    exact matchCI_cons_none (by revert hc; revert c; decide)
  have hE : ∀ c cs', c ∈ numOpChars →
      matchW false "E".toList (c :: cs') = none := by
    intro c cs' hc
    exact matchCS_cons_none (by revert hc; revert c; decide)
  have hrad : ∀ c cs', c ∈ numOpChars →
      matchCI "rad".toList (c :: cs') = none := by
    intro c cs' hc
    exact matchCI_cons_none (by revert hc; revert c; decide)
  have hdeg : ∀ c cs', c ∈ numOpChars →
      matchCI "deg".toList (c :: cs') = none := by
    intro c cs' hc
    exact matchCI_cons_none (by revert hc; revert c; decide)
  have hsin : ∀ c cs', c ∈ numOpChars →
      matchCI "sin".toList (c :: cs') = none := by
    intro c cs' hc
    exact matchCI_cons_none (by revert hc; revert c; decide)
  have hcos : ∀ c cs', c ∈ numOpChars →
      matchCI "cos".toList (c :: cs') = none := by
    intro c cs' hc
    exact matchCI_cons_none (by revert hc; revert c; decide)
  have htan : ∀ c cs', c ∈ numOpChars →
      matchCI "tan".toList (c :: cs') = none := by
    intro c cs' hc
    exact matchCI_cons_none (by revert hc; revert c; decide)
  have hnil : ∀ cs : List Char, cs = [] → matchCI "deg".toList cs = none := by
    rintro _ rfl; rfl
  have hnil2 : ∀ cs : List Char, cs = [] → matchCI "rad".toList cs = none := by
    rintro _ rfl; rfl
  have hradW : ∀ c cs', c ∈ numOpChars →
      matchW true "rad".toList (c :: cs') = none := by
    intro c cs' hc; simpa [matchW] using hrad c cs' hc
  have hdegW : ∀ c cs', c ∈ numOpChars →
      matchW true "deg".toList (c :: cs') = none := by
    intro c cs' hc; simpa [matchW] using hdeg c cs' hc
  unfold canonStr
  simp only [replaceWord_id hpi h, replaceWord_id hE h, replaceWord_id hradW h,
    replaceWord_id hdegW h, unitReplace_id hdeg hnil h,
    unitReplace_id hrad hnil2 h]
  split
  · rw [trigWrap_id hsin h, trigWrap_id hcos h, trigWrap_id htan h]
  · rfl



def noIdentTok : Tok → Bool
  | .tid _ => false
  | _ => true

theorem subset_of_append {pre r cs : List Char}
    (hsp : pre ++ r = cs) (h : ∀ c ∈ cs, c ∈ numOpChars) :
    ∀ c ∈ r, c ∈ numOpChars := fun c hc => h c (by rw [← hsp]; simp [hc])

theorem lexF_no_ident : ∀ fuel (cs : List Char), (∀ c ∈ cs, c ∈ numOpChars) →
    ∀ ts, lexF fuel cs = some ts → ∀ t ∈ ts, noIdentTok t = true := by
  intro fuel
  induction fuel with
  | zero =>
    intro cs h ts hl
    simp only [lexF] at hl
    split at hl
    · cases hl; simp
    · simp at hl
  | succ fuel ih =>
    intro cs h ts hl
    cases cs with
    | nil =>
      simp only [lexF] at hl
      cases hl; simp
    | cons c cs' =>
      have hsub : ∀ x ∈ cs', x ∈ numOpChars := fun x hx =>
        h x (List.mem_cons_of_mem _ hx)
      simp only [lexF] at hl
      by_cases hws : isWS c
      · rw [if_pos hws] at hl
        exact ih cs' hsub ts hl
      rw [if_neg hws] at hl
      by_cases hdig : c.isDigit
      · rw [if_pos hdig] at hl
        have hkey : ∀ x ∈ ((match (takeDigits (c :: cs')).2 with
            | '.' :: r =>
              match takeDigits r with
              | ([], _) => (([] : List Char), (takeDigits (c :: cs')).2)
              | (f, r') => (f, r')
            | _ => (([] : List Char), (takeDigits (c :: cs')).2) :
              List Char × List Char)).2,
            x ∈ numOpChars := by
          have hr1 : ∀ x ∈ (takeDigits (c :: cs')).2, x ∈ numOpChars :=
            subset_of_append (takeDigits_append (c :: cs')) h
          split
          · rename_i r heq2
            split
            · intro x hx; exact hr1 x hx
            · rename_i f r' hne hf
              intro x hx
              have happ : f ++ r' = r := by
                have h3 := takeDigits_append r
                rw [hf] at h3
                simpa using h3
              refine hr1 x ?_
              rw [heq2]
              exact List.mem_cons_of_mem _ (by rw [← happ]; simp [hx])
          · intro x hx; exact hr1 x hx
        split at hl
        · rename_i r2 r3 heq
          exfalso
          rw [heq] at hkey
          have h2 := hkey 'e' (by simp)
          revert h2; decide
        · rename_i r2 r3 heq
          exfalso
          rw [heq] at hkey
          have h2 := hkey 'E' (by simp)
          revert h2; decide
        · rcases hrec : lexF fuel ((match (takeDigits (c :: cs')).2 with
              | '.' :: r =>
                match takeDigits r with
                | ([], _) => (([] : List Char), (takeDigits (c :: cs')).2)
                | (f, r') => (f, r')
              | _ => (([] : List Char), (takeDigits (c :: cs')).2) :
                List Char × List Char)).2 with _ | ts0
          · rw [hrec] at hl; simp at hl
          · rw [hrec] at hl
            simp only [Option.map_some'] at hl
            cases hl
            intro t ht
            rcases List.mem_cons.mp ht with rfl | ht'
            · rfl
            · exact ih _ hkey ts0 hrec t ht'
      rw [if_neg hdig] at hl
      have halpha : c.isAlpha = false := by
        have hgen : ∀ x ∈ numOpChars, x.isAlpha = false := by decide
        exact hgen c (h c (List.mem_cons_self c cs'))
      rw [halpha] at hl
      simp only [Bool.false_eq_true, if_false] at hl
      repeat' split at hl
      all_goals
        first
        | (rw [Option.map_eq_some'] at hl
           obtain ⟨ts0, hrec, hcons⟩ := hl
           subst hcons
           intro t ht
           rcases List.mem_cons.mp ht with rfl | ht'
           · rfl
           · exact ih cs' hsub ts0 hrec t ht')
        | simp at hl

def noCallB : Ast → Bool
  | .num _ _ => true
  | .sym _ => true
  | .call _ _ => false
  | .neg a => noCallB a
  | .add a b => noCallB a && noCallB b
  | .sub a b => noCallB a && noCallB b
  | .mul a b => noCallB a && noCallB b
  | .div a b => noCallB a && noCallB b
  | .pow a b => noCallB a && noCallB b

theorem transformLogLn_id : ∀ a, noCallB a = true → transformLogLn a = a
  | .num _ _, _ => rfl
  | .sym _, _ => rfl
  | .call _ _, h => by simp [noCallB] at h
  | .neg a, h => by
    simp only [transformLogLn]
    rw [transformLogLn_id a (by simpa [noCallB] using h)]
  | .add a b, h => by
    rcases Bool.and_eq_true _ _ |>.mp (by simpa [noCallB] using h) with ⟨h1, h2⟩
    simp only [transformLogLn]
    rw [transformLogLn_id a h1, transformLogLn_id b h2]
  | .sub a b, h => by
    rcases Bool.and_eq_true _ _ |>.mp (by simpa [noCallB] using h) with ⟨h1, h2⟩
    simp only [transformLogLn]
    rw [transformLogLn_id a h1, transformLogLn_id b h2]
  | .mul a b, h => by
    rcases Bool.and_eq_true _ _ |>.mp (by simpa [noCallB] using h) with ⟨h1, h2⟩
    simp only [transformLogLn]
    rw [transformLogLn_id a h1, transformLogLn_id b h2]
  | .div a b, h => by
    rcases Bool.and_eq_true _ _ |>.mp (by simpa [noCallB] using h) with ⟨h1, h2⟩
    simp only [transformLogLn]
    rw [transformLogLn_id a h1, transformLogLn_id b h2]
  | .pow a b, h => by
    rcases Bool.and_eq_true _ _ |>.mp (by simpa [noCallB] using h) with ⟨h1, h2⟩
    simp only [transformLogLn]
    rw [transformLogLn_id a h1, transformLogLn_id b h2]

theorem parse_no_call (fuel : Nat) :
    (∀ ts, (∀ t ∈ ts, noIdentTok t = true) → ∀ a rest,
       parseAdd fuel ts = some (a, rest) →
       noCallB a = true ∧ ∀ t ∈ rest, noIdentTok t = true) ∧
    (∀ acc ts, noCallB acc = true → (∀ t ∈ ts, noIdentTok t = true) →
       ∀ a rest, parseAddLoop fuel acc ts = some (a, rest) →
       noCallB a = true ∧ ∀ t ∈ rest, noIdentTok t = true) ∧
    (∀ ts, (∀ t ∈ ts, noIdentTok t = true) → ∀ a rest,
       parseMul fuel ts = some (a, rest) →
       noCallB a = true ∧ ∀ t ∈ rest, noIdentTok t = true) ∧
    (∀ acc ts, noCallB acc = true → (∀ t ∈ ts, noIdentTok t = true) →
       ∀ a rest, parseMulLoop fuel acc ts = some (a, rest) →
       noCallB a = true ∧ ∀ t ∈ rest, noIdentTok t = true) ∧
    (∀ ts, (∀ t ∈ ts, noIdentTok t = true) → ∀ a rest,
       parseUnary fuel ts = some (a, rest) →
       noCallB a = true ∧ ∀ t ∈ rest, noIdentTok t = true) ∧
    (∀ ts, (∀ t ∈ ts, noIdentTok t = true) → ∀ a rest,
       parsePow fuel ts = some (a, rest) →
       noCallB a = true ∧ ∀ t ∈ rest, noIdentTok t = true) ∧
    (∀ ts, (∀ t ∈ ts, noIdentTok t = true) → ∀ a rest,
       parsePrimary fuel ts = some (a, rest) →
       noCallB a = true ∧ ∀ t ∈ rest, noIdentTok t = true) := by
  induction fuel with
  | zero =>
    refine ⟨?_, ?_, ?_, ?_, ?_, ?_, ?_⟩
    · intro ts _ a rest hp; simp [parseAdd] at hp
    · intro acc ts _ _ a rest hp; simp [parseAddLoop] at hp
    · intro ts _ a rest hp; simp [parseMul] at hp
    · intro acc ts _ _ a rest hp; simp [parseMulLoop] at hp
    · intro ts _ a rest hp; simp [parseUnary] at hp
    · intro ts _ a rest hp; simp [parsePow] at hp
    · intro ts _ a rest hp; simp [parsePrimary] at hp
  | succ fuel ih =>
    obtain ⟨ihAdd, ihAddLoop, ihMul, ihMulLoop, ihUnary, ihPow, ihPrimary⟩ := ih
    refine ⟨?_, ?_, ?_, ?_, ?_, ?_, ?_⟩
    · -- parseAdd
      intro ts hts a rest hp
      simp only [parseAdd] at hp
      rcases hm : parseMul fuel ts with _ | ⟨b, rest'⟩ <;> rw [hm] at hp
      · simp at hp
      · obtain ⟨hb, hr⟩ := ihMul ts hts b rest' hm
        exact ihAddLoop b rest' hb hr a rest hp
    · -- parseAddLoop
      intro acc ts hacc hts a rest hp
      simp only [parseAddLoop] at hp
      rcases ts with _ | ⟨t, ts'⟩
      · cases hp
        exact ⟨hacc, hts⟩
      · have hts' : ∀ t ∈ ts', noIdentTok t = true := fun x hx =>
          hts x (List.mem_cons_of_mem _ hx)
        cases t <;> (try dsimp only at hp)
        case tplus =>
          rcases hm : parseMul fuel ts' with _ | ⟨b, rest'⟩ <;> rw [hm] at hp
          · simp at hp
          · obtain ⟨hb, hr⟩ := ihMul ts' hts' b rest' hm
            exact ihAddLoop (.add acc b) rest' (by simp [noCallB, hacc, hb]) hr a rest hp
        case tminus =>
          rcases hm : parseMul fuel ts' with _ | ⟨b, rest'⟩ <;> rw [hm] at hp
          · simp at hp
          · obtain ⟨hb, hr⟩ := ihMul ts' hts' b rest' hm
            exact ihAddLoop (.sub acc b) rest' (by simp [noCallB, hacc, hb]) hr a rest hp
        all_goals (cases hp; exact ⟨hacc, hts⟩)
    · -- parseMul
      intro ts hts a rest hp
      simp only [parseMul] at hp
      rcases hm : parseUnary fuel ts with _ | ⟨b, rest'⟩ <;> rw [hm] at hp
      · simp at hp
      · obtain ⟨hb, hr⟩ := ihUnary ts hts b rest' hm
        exact ihMulLoop b rest' hb hr a rest hp
    · -- parseMulLoop
      intro acc ts hacc hts a rest hp
      simp only [parseMulLoop] at hp
      rcases ts with _ | ⟨t, ts'⟩
      · cases hp
        exact ⟨hacc, hts⟩
      · have hts' : ∀ t ∈ ts', noIdentTok t = true := fun x hx =>
          hts x (List.mem_cons_of_mem _ hx)
        cases t <;> (try dsimp only at hp)
        case tmul =>
          rcases hm : parseUnary fuel ts' with _ | ⟨b, rest'⟩ <;> rw [hm] at hp
          · simp at hp
          · obtain ⟨hb, hr⟩ := ihUnary ts' hts' b rest' hm
            exact ihMulLoop (.mul acc b) rest' (by simp [noCallB, hacc, hb]) hr a rest hp
        case tdiv =>
          rcases hm : parseUnary fuel ts' with _ | ⟨b, rest'⟩ <;> rw [hm] at hp
          · simp at hp
          · obtain ⟨hb, hr⟩ := ihUnary ts' hts' b rest' hm
            exact ihMulLoop (.div acc b) rest' (by simp [noCallB, hacc, hb]) hr a rest hp
        case tid s =>
          have := hts (.tid s) (List.mem_cons_self _ _)
          simp [noIdentTok] at this
        case tlp =>
          rcases hm : parseUnary fuel (.tlp :: ts') with _ | ⟨b, rest'⟩ <;> rw [hm] at hp
          · simp at hp
          · obtain ⟨hb, hr⟩ := ihUnary (.tlp :: ts') hts b rest' hm
            exact ihMulLoop (.mul acc b) rest' (by simp [noCallB, hacc, hb]) hr a rest hp
        all_goals (cases hp; exact ⟨hacc, hts⟩)
    · -- parseUnary
      intro ts hts a rest hp
      simp only [parseUnary] at hp
      rcases ts with _ | ⟨t, ts'⟩
      · exact ihPow [] hts a rest hp
      · have hts' : ∀ t ∈ ts', noIdentTok t = true := fun x hx =>
          hts x (List.mem_cons_of_mem _ hx)
        cases t <;> (try dsimp only at hp)
        case tminus =>
          rcases hm : parseUnary fuel ts' with _ | ⟨b, rest'⟩ <;> rw [hm] at hp
          · simp at hp
          · obtain ⟨hb, hr⟩ := ihUnary ts' hts' b rest' hm
            cases hp
            exact ⟨by simpa [noCallB] using hb, hr⟩
        case tplus => exact ihUnary ts' hts' a rest hp
        all_goals exact ihPow _ hts a rest hp
    · -- parsePow
      intro ts hts a rest hp
      simp only [parsePow] at hp
      rcases hm : parsePrimary fuel ts with _ | ⟨b, rest0⟩ <;> rw [hm] at hp
      · simp at hp
      · obtain ⟨hb, hr0⟩ := ihPrimary ts hts b rest0 hm
        rcases rest0 with _ | ⟨t, rest0'⟩
        · cases hp
          exact ⟨hb, hr0⟩
        · have hr0' : ∀ t ∈ rest0', noIdentTok t = true := fun x hx =>
            hr0 x (List.mem_cons_of_mem _ hx)
          cases t <;> (try dsimp only at hp)
          case tpow =>
            rcases hm2 : parseUnary fuel rest0' with _ | ⟨e, rest'⟩ <;> rw [hm2] at hp
            · simp at hp
            · obtain ⟨he, hr⟩ := ihUnary rest0' hr0' e rest' hm2
              cases hp
              exact ⟨by simp [noCallB, hb, he], hr⟩
          all_goals (cases hp; exact ⟨hb, hr0⟩)
    · -- parsePrimary
      intro ts hts a rest hp
      simp only [parsePrimary] at hp
      rcases ts with _ | ⟨t, ts'⟩
      · simp at hp
      · have hts' : ∀ t ∈ ts', noIdentTok t = true := fun x hx =>
          hts x (List.mem_cons_of_mem _ hx)
        cases t <;> (try dsimp only at hp)
        case tnum m e =>
          cases hp
          exact ⟨rfl, hts'⟩
        case tid s =>
          have := hts (.tid s) (List.mem_cons_self _ _)
          simp [noIdentTok] at this
        case tlp =>
          rcases hm : parseAdd fuel ts' with _ | ⟨b, rest0⟩ <;> rw [hm] at hp
          · simp at hp
          · obtain ⟨hb, hr0⟩ := ihAdd ts' hts' b rest0 hm
            rcases rest0 with _ | ⟨t2, rest0'⟩
            · simp at hp
            · have hr0' : ∀ t ∈ rest0', noIdentTok t = true := fun x hx =>
                hr0 x (List.mem_cons_of_mem _ hx)
              cases t2 <;> (try dsimp only at hp)
              case trp =>
                cases hp
                exact ⟨hb, hr0'⟩
              all_goals simp at hp
        all_goals simp at hp

theorem parseE_no_call {s : String} (h : ∀ c ∈ s.toList, c ∈ numOpChars) :
    ∀ a, parseE s = some a → noCallB a = true := by
  intro a hp
  unfold parseE at hp
  rcases hlex : lexF (s.toList.length + 1) s.toList with _ | ts <;> rw [hlex] at hp
  · simp at hp
  · dsimp only at hp
    have hts : ∀ t ∈ ts, noIdentTok t = true := lexF_no_ident _ _ h ts hlex
    rcases hadd : parseAdd (5 * ts.length + 5) ts with _ | ⟨b, rest⟩ <;> rw [hadd] at hp
    · simp at hp
    · obtain ⟨hb, -⟩ := (parse_no_call (5 * ts.length + 5)).1 ts hts b rest hadd
      rcases rest with _ | ⟨t, r⟩
      · dsimp only at hp
        cases hp
        exact hb
      · simp at hp


/-- C8: on a purely numeric/operator expression (characters drawn from
digits, the decimal point, `+ - * / ^ ( ) ,` and whitespace), the
canonicalization phase is the identity, evaluating through `evalStrict`
equals evaluating the input directly (without the canonicalization
rewrites and without the `log`/`ln` transform), and canonicalization is
idempotent. -/
theorem canonicalization_noop (s mode : String)
    (h : ∀ c ∈ s.toList, c ∈ numOpChars) :
    canonStr s mode = s ∧ evalStrict s mode = evalDirect s ∧
    canonStr (canonStr s mode) mode = canonStr s mode := by
  have hc : canonStr s mode = s := canonStr_id mode h
  refine ⟨hc, ?_, by rw [hc, hc]⟩
  unfold evalStrict evalDirect
  by_cases hg : allowedTokens s = true
  · rw [if_pos hg, if_pos hg]
    have hcore : evalStrictCore s mode =
        (match parseE s with
         | none => .error .parseFailure
         | some a => evalGuards (evalV a) : Except EvalErr ℝ) := by
      unfold evalStrictCore
      rw [hc]
      rcases hp : parseE s with _ | a
      · simp only [hp]
      · simp only [hp]
        rw [transformLogLn_id a (parseE_no_call h a hp)]
    rw [hcore]
  · rw [if_neg hg, if_neg hg]

theorem canonicalization_noop_witness :
    (∀ c ∈ ("2+3*4" : String).toList, c ∈ numOpChars) ∧
    (canonStr "2+3*4" "DEG" = "2+3*4" ∧
     evalStrict "2+3*4" "DEG" = evalDirect "2+3*4" ∧
     canonStr (canonStr "2+3*4" "DEG") "DEG" = canonStr "2+3*4" "DEG") :=
  ⟨by decide, canonicalization_noop "2+3*4" "DEG" (by decide)⟩

end GPTCalc
